import Mathlib

/-!
Verification of the subprocess CLI transport
(`src/claude_code_sdk/_internal/transport/subprocess_cli.py`).

The development shallowly embeds the pure content of the module:

* a model of JSON values, of Python's `json.dumps` (default separators,
  ASCII-printable strings) and of `json.loads` restricted to integer
  numbers (floats are outside the model);
* the brace-depth / string / escape scanner of `receive_messages`
  (lines 197-230 of the source) and the per-slice decode loop
  (lines 232-246);
* the stderr / exit-code correlation check (lines 251-259);
* `_build_command` (lines 73-115) as a pure function on an options record;
* the `connect` / `disconnect` / `is_connected` lifecycle as a state
  machine with the spawn / termination outcomes as explicit parameters.

Lines are modelled as `List Char` (Python iterates strings by character);
machine integers do not occur (Python ints are unbounded, `Int` is exact).
-/

namespace SubprocessCLI

/-! ### Character classes and Python string helpers -/

/-- Whitespace stripped by Python's `str.strip()` (the ASCII part). -/
def isStripWs (c : Char) : Bool :=
  c = ' ' || c = '\t' || c = '\n' || c = '\r' || c = '\x0b' || c = '\x0c'

/-- Whitespace skipped between JSON tokens by `json.loads` (RFC 8259). -/
def isJsonWs (c : Char) : Bool :=
  c = ' ' || c = '\t' || c = '\n' || c = '\r'

/-- Model of Python `str.strip()`: drop leading and trailing whitespace. -/
def stripChars (xs : List Char) : List Char :=
  ((xs.dropWhile isStripWs).reverse.dropWhile isStripWs).reverse

/-- Decimal digit test, as used by the number lexer. -/
def isDigitCh (c : Char) : Bool :=
  '0' ≤ c && c ≤ '9'

/-- Does the first list occur as a contiguous block at the front of the second? -/
def headBlock : List Char → List Char → Bool
  | [], _ => true
  | _ :: _, [] => false
  | p :: ps, c :: cs => p = c && headBlock ps cs

/-- Model of Python's `needle in hay` substring test. -/
def containsSub (needle : List Char) : List Char → Bool
  | [] => needle.isEmpty
  | c :: cs => headBlock needle (c :: cs) || containsSub needle cs

/-- Model of Python `str.lower()` on ASCII text. -/
def lowerChars (xs : List Char) : List Char :=
  xs.map Char.toLower

/-! ### JSON values

Numbers are modelled as integers: the transport treats messages as opaque
payloads and no claim depends on floating-point literals, which have no
exact shallow embedding. -/

/-- A JSON value as produced by `json.loads` (object members kept in textual
order, which is also CPython's insertion order). -/
inductive JsonVal where
  | null : JsonVal
  | bool (b : Bool) : JsonVal
  | num (n : Int) : JsonVal
  | str (s : List Char) : JsonVal
  | arr (xs : List JsonVal) : JsonVal
  | obj (kvs : List (List Char × JsonVal)) : JsonVal

/-- Decimal digit character for `d < 10`. -/
def digitCh (d : Nat) : Char :=
  Char.ofNat (48 + d)

/-- Decimal digits of a natural number, most significant first. -/
def natDigs (n : Nat) : List Char :=
  if n < 10 then [digitCh n]
  else natDigs (n / 10) ++ [digitCh (n % 10)]
termination_by n
decreasing_by omega

/-- Characters of `str(n)` for a Python int: optional minus sign, then digits. -/
def intChars (n : Int) : List Char :=
  if n < 0 then '-' :: natDigs n.natAbs else natDigs n.natAbs

/-- Escape one character of a string literal the way `json.dumps` does for
ASCII-printable input: only the quote and the backslash need escaping. -/
def escCh (c : Char) : List Char :=
  if c = '"' then ['\\', '"']
  else if c = '\\' then ['\\', '\\']
  else [c]

/-- Escaped body of a string literal. -/
def escStr : List Char → List Char
  | [] => []
  | c :: cs => escCh c ++ escStr cs

mutual

/-- Model of `json.dumps` with CPython's default separators `", "` and
`": "`, on values whose strings are ASCII-printable (so no `\uXXXX` or
control-character escapes arise). -/
def encodeVal : JsonVal → List Char
  | .null => ['n', 'u', 'l', 'l']
  | .bool b => if b then ['t', 'r', 'u', 'e'] else ['f', 'a', 'l', 's', 'e']
  | .num n => intChars n
  | .str s => '"' :: (escStr s ++ ['"'])
  | .arr xs => '[' :: (encodeArr xs ++ [']'])
  | .obj kvs => '{' :: (encodeObj kvs ++ ['}'])

/-- Array elements joined by `", "`. -/
def encodeArr : List JsonVal → List Char
  | [] => []
  | [v] => encodeVal v
  | v :: tl => encodeVal v ++ ',' :: ' ' :: encodeArr tl

/-- Object members `"key": value` joined by `", "`. -/
def encodeObj : List (List Char × JsonVal) → List Char
  | [] => []
  | [(k, v)] => '"' :: (escStr k ++ '"' :: ':' :: ' ' :: encodeVal v)
  | (k, v) :: tl =>
      '"' :: (escStr k ++ '"' :: ':' :: ' ' :: encodeVal v)
        ++ ',' :: ' ' :: encodeObj tl

end

/-- A string is ASCII-printable when each character is in `0x20 .. 0x7e`;
on such strings the model of `json.dumps` matches CPython exactly. -/
def printableStr (s : List Char) : Bool :=
  s.all (fun c => 32 ≤ c.toNat && c.toNat ≤ 126)

mutual

/-- Well-formedness of a value for the encoder model: every string (value or
key) is ASCII-printable. -/
def wfVal : JsonVal → Bool
  | .null => true
  | .bool _ => true
  | .num _ => true
  | .str s => printableStr s
  | .arr xs => wfArr xs
  | .obj kvs => wfObj kvs

/-- All elements well-formed. -/
def wfArr : List JsonVal → Bool
  | [] => true
  | v :: tl => wfVal v && wfArr tl

/-- All keys printable and values well-formed. -/
def wfObj : List (List Char × JsonVal) → Bool
  | [] => true
  | (k, v) :: tl => printableStr k && wfVal v && wfObj tl

end

mutual

/-- Fuel measure for the parser: enough fuel to parse `encodeVal v` is
`sizeVal v` (proved below via `sizeVal_le_length`). -/
def sizeVal : JsonVal → Nat
  | .null => 2
  | .bool _ => 2
  | .num _ => 2
  | .str _ => 2
  | .arr xs => 2 + sizeArr xs
  | .obj kvs => 2 + sizeObj kvs

/-- Size of an element list. -/
def sizeArr : List JsonVal → Nat
  | [] => 0
  | v :: tl => 1 + sizeVal v + sizeArr tl

/-- Size of a member list. -/
def sizeObj : List (List Char × JsonVal) → Nat
  | [] => 0
  | (_, v) :: tl => 1 + sizeVal v + sizeObj tl

end

/-! ### A model of `json.loads`

A recursive-descent parser over `List Char`, following CPython's `json`
scanner: whitespace (` \t\n\r`) is skipped between tokens, string literals
understand the standard escapes (including `\uXXXX`) and reject raw control
characters (`strict=True`), numbers reject a leading zero, and the toplevel
entry point rejects trailing data.  Numbers are integers (see `JsonVal`).
Recursion is by fuel; `jsonLoads` supplies fuel `length + 1`, which is
always sufficient (`sizeVal_le_length`). -/

/-- Drop JSON token whitespace. -/
def skipWs : List Char → List Char
  | c :: cs => if isJsonWs c then skipWs cs else c :: cs
  | [] => []

/-- Value of a hexadecimal digit, if any. -/
def hexDigVal (c : Char) : Option Nat :=
  if '0' ≤ c && c ≤ '9' then some (c.toNat - 48)
  else if 'a' ≤ c && c ≤ 'f' then some (c.toNat - 87)
  else if 'A' ≤ c && c ≤ 'F' then some (c.toNat - 55)
  else none

/-- Body of a string literal after the opening quote: decoded characters and
the remainder after the closing quote.  Raw control characters are rejected
as CPython does with its default `strict=True`. -/
def parseStrBody : List Char → Option (List Char × List Char)
  | [] => none
  | c :: r =>
      if c = '\\' then
        match r with
        | [] => none
        | e :: r2 =>
            if e = '"' then (parseStrBody r2).map (fun p => ('"' :: p.1, p.2))
            else if e = '\\' then (parseStrBody r2).map (fun p => ('\\' :: p.1, p.2))
            else if e = '/' then (parseStrBody r2).map (fun p => ('/' :: p.1, p.2))
            else if e = 'b' then (parseStrBody r2).map (fun p => ('\x08' :: p.1, p.2))
            else if e = 'f' then (parseStrBody r2).map (fun p => ('\x0c' :: p.1, p.2))
            else if e = 'n' then (parseStrBody r2).map (fun p => ('\n' :: p.1, p.2))
            else if e = 'r' then (parseStrBody r2).map (fun p => ('\r' :: p.1, p.2))
            else if e = 't' then (parseStrBody r2).map (fun p => ('\t' :: p.1, p.2))
            else if e = 'u' then
              match r2 with
              | h1 :: h2 :: h3 :: h4 :: r3 =>
                  match hexDigVal h1, hexDigVal h2, hexDigVal h3, hexDigVal h4 with
                  | some a, some b, some c2, some d =>
                      (parseStrBody r3).map (fun p =>
                        (Char.ofNat (((a * 16 + b) * 16 + c2) * 16 + d) :: p.1, p.2))
                  | _, _, _, _ => none
              | _ => none
            else none
      else if c = '"' then some ([], r)
      else if c.toNat < 32 then none
      else (parseStrBody r).map (fun p => (c :: p.1, p.2))

/-- Numeric value of a digit run (most significant first). -/
def digsToNat (ds : List Char) : Nat :=
  ds.foldl (fun a c => 10 * a + (c.toNat - 48)) 0

/-- An unsigned integer literal: a nonempty digit run without a redundant
leading zero (CPython's `NUMBER_RE` likewise rejects `01`). -/
def parsePosNum (cs : List Char) : Option (Nat × List Char) :=
  let ds := cs.takeWhile isDigitCh
  if ds.isEmpty then none
  else if ds.head? = some '0' && ds.length != 1 then none
  else some (digsToNat ds, cs.dropWhile isDigitCh)

mutual

/-- One JSON value (fuelled).  `parseVal (f+1) cs` skips whitespace and
dispatches on the first character. -/
def parseVal : Nat → List Char → Option (JsonVal × List Char)
  | 0, _ => none
  | f + 1, cs => parseValCore f (skipWs cs)

/-- Dispatch after whitespace skipping, following CPython's scanner: the
constant literals are recognised by comparing a four or five character
window, everything else by its first character.  Fuel decreases on every
call in this mutual block, so the parser is structurally recursive and
computable by kernel reduction; `jsonLoads` supplies ample fuel. -/
def parseValCore : Nat → List Char → Option (JsonVal × List Char)
  | 0, _ => none
  | f + 1, cs =>
  if headBlock ['n', 'u', 'l', 'l'] cs then some (.null, cs.drop 4)
  else if headBlock ['t', 'r', 'u', 'e'] cs then some (.bool true, cs.drop 4)
  else if headBlock ['f', 'a', 'l', 's', 'e'] cs then some (.bool false, cs.drop 5)
  else
    match cs with
    | [] => none
    | c :: r =>
        if c = '"' then (parseStrBody r).map (fun p => (.str p.1, p.2))
        else if c = '[' then
          (match skipWs r with
           | ']' :: r2 => some (.arr [], r2)
           | r2 => (parseElems f r2).map (fun p => (.arr p.1, p.2)))
        else if c = '{' then
          (match skipWs r with
           | '}' :: r2 => some (.obj [], r2)
           | r2 => (parseMems f r2).map (fun p => (.obj p.1, p.2)))
        else if c = '-' then
          (parsePosNum r).map (fun p => (.num (-(p.1 : Int)), p.2))
        else if isDigitCh c then
          (parsePosNum (c :: r)).map (fun p => (.num (p.1 : Int), p.2))
        else none

/-- One or more comma-separated array elements, up to the closing bracket
(the empty array is handled by the caller). -/
def parseElems : Nat → List Char → Option (List JsonVal × List Char)
  | 0, _ => none
  | f + 1, cs =>
      match parseVal f cs with
      | none => none
      | some (v, r) =>
          match skipWs r with
          | [] => none
          | c :: r2 =>
              if c = ']' then some ([v], r2)
              else if c = ',' then
                (parseElems f r2).map (fun p => (v :: p.1, p.2))
              else none

/-- One or more `"key": value` members, up to the closing brace (the empty
object is handled by the caller). -/
def parseMems : Nat → List Char → Option (List (List Char × JsonVal) × List Char)
  | 0, _ => none
  | f + 1, cs =>
      match cs with
      | [] => none
      | c :: r =>
          if c = '"' then
            match parseStrBody r with
            | none => none
            | some (k, r2) =>
                match skipWs r2 with
                | [] => none
                | c2 :: r3 =>
                    if c2 = ':' then
                      match parseVal f r3 with
                      | none => none
                      | some (v, r4) =>
                          match skipWs r4 with
                          | [] => none
                          | c3 :: r5 =>
                              if c3 = '}' then some ([(k, v)], r5)
                              else if c3 = ',' then
                                (parseMems f (skipWs r5)).map
                                  (fun p => ((k, v) :: p.1, p.2))
                              else none
                    else none
          else none

end

/-- Model of `json.loads`: parse one document, then require only whitespace
to remain. -/
def jsonLoads (cs : List Char) : Option JsonVal :=
  match parseVal (2 * cs.length + 2) cs with
  | some (v, rest) => if (skipWs rest).isEmpty then some v else none
  | none => none

/-! ### The brace-depth scanner of `receive_messages`

Source lines 197-230: a single pass over the (stripped) line maintaining
`brace_count`, `in_string`, `escape_next` and `start_pos`, collecting the
index range of every balanced top-level `{...}` span.  `brace_count` is an
`Int` because the Python counter may go negative on stray `}`. -/

/-- Scanner state; `objs` holds `(start, stop)` index ranges, `stop`
exclusive, in order of the closing brace. -/
structure ScanSt where
  brace_count : Int
  in_string : Bool
  escape_next : Bool
  start_pos : Nat
  objs : List (Nat × Nat)
deriving Repr

/-- The initial scanner state at the head of a line. -/
def initScan : ScanSt :=
  { brace_count := 0, in_string := false, escape_next := false,
    start_pos := 0, objs := [] }

/-- One character step of the scan, mirroring the `for i, char in
enumerate(line_str)` body (each source branch ends in `continue`, so the
branches form a priority chain). -/
def scanChar (st : ScanSt) (i : Nat) (c : Char) : ScanSt :=
  if st.escape_next then
    { st with escape_next := false }
  else if c = '\\' && st.in_string then
    { st with escape_next := true }
  else if c = '"' && !st.escape_next then
    { st with in_string := !st.in_string }
  else if !st.in_string then
    if c = '{' then
      if st.brace_count = 0 then
        { st with start_pos := i, brace_count := st.brace_count + 1 }
      else
        { st with brace_count := st.brace_count + 1 }
    else if c = '}' then
      if st.brace_count - 1 = 0 then
        { st with brace_count := st.brace_count - 1,
                  objs := st.objs ++ [(st.start_pos, i + 1)] }
      else
        { st with brace_count := st.brace_count - 1 }
    else st
  else st

/-- Fold the step over the remaining characters, `i` being the index of the
first of them in the whole line. -/
def scanAux (st : ScanSt) (i : Nat) : List Char → ScanSt
  | [] => st
  | c :: cs => scanAux (scanChar st i c) (i + 1) cs

/-- Index ranges of the balanced top-level objects of a line. -/
def scanObjs (line : List Char) : List (Nat × Nat) :=
  (scanAux initScan 0 line).objs

/-- The substring `line[a:b]` (Python slice). -/
def sliceOf (line : List Char) (r : Nat × Nat) : List Char :=
  (line.drop r.1).take (r.2 - r.1)

/-- The candidate `json_str` slices of a stripped line: the scanned object
spans, or, when none were found, the entire line (source lines 228-230). -/
def candidateSlices (line_str : List Char) : List (List Char) :=
  let objs := (scanObjs line_str).map (sliceOf line_str)
  if objs.isEmpty then [line_str] else objs

/-! ### Per-slice decoding (source lines 232-246) -/

/-- Errors surfaced by the transport, with the payloads the claims mention
(the wrapped Python exception objects themselves are not modelled). -/
inductive SdkError where
  | notFound : SdkError
  | connectionError : SdkError
  | decodeError (txt : List Char) : SdkError
  | processError (exit_code : Int) (stderr : List Char) : SdkError

/-- Outcome of one candidate slice. -/
inductive SliceStep where
  | yield (v : JsonVal) : SliceStep
  | skip : SliceStep
  | raiseDecode (txt : List Char) : SliceStep

/-- Processing of one `json_str`: skip blanks; on a decode failure raise
exactly when the slice starts with `{` or `[`, else skip. -/
def processSlice (json_str : List Char) : SliceStep :=
  if (stripChars json_str).isEmpty then .skip
  else
    match jsonLoads json_str with
    | some data => .yield data
    | none =>
        if headBlock ['{'] json_str || headBlock ['['] json_str then
          .raiseDecode json_str
        else .skip

/-- Fold the slice loop: messages yielded before the first raised decode
error, and that error if one occurred. -/
def processSlices : List (List Char) → List JsonVal × Option (List Char)
  | [] => ([], none)
  | s :: rest =>
      match processSlice s with
      | .yield v =>
          let p := processSlices rest
          (v :: p.1, p.2)
      | .skip => processSlices rest
      | .raiseDecode t => ([], some t)

/-- Processing of one raw stdout line: strip, skip if blank, scan, decode
the candidate slices in order. -/
def processLine (raw : List Char) : List JsonVal × Option (List Char) :=
  let line_str := stripChars raw
  if line_str.isEmpty then ([], none)
  else processSlices (candidateSlices line_str)

/-- Processing of the whole stdout stream: lines in order, stopping at the
first decode error (the raised exception ends the generator). -/
def processLines : List (List Char) → List JsonVal × Option (List Char)
  | [] => ([], none)
  | l :: ls =>
      let p := processLine l
      match p.2 with
      | some t => (p.1, some t)
      | none =>
          let q := processLines ls
          (p.1 ++ q.1, q.2)

/-! ### Exit correlation (source lines 251-259) -/

/-- Model of `"\n".join(stderr_lines)`. -/
def joinLines (lines : List (List Char)) : List Char :=
  match lines with
  | [] => []
  | [l] => l
  | l :: tl => l ++ '\n' :: joinLines tl

/-- The check run after `await self._process.wait()`: raise `ProcessError`
iff the return code is known and nonzero, the joined stderr is nonempty
(Python truthiness) and its lowercasing contains `"error"`. -/
def exitCheck (returncode : Option Int) (stderr_lines : List (List Char)) :
    Option SdkError :=
  match returncode with
  | none => none
  | some rc =>
      if rc ≠ 0 then
        let stderr_output := joinLines stderr_lines
        if !stderr_output.isEmpty
            && containsSub ['e', 'r', 'r', 'o', 'r'] (lowerChars stderr_output) then
          some (.processError rc stderr_output)
        else none
      else none

/-- End-to-end model of the message stream of `receive_messages` once
connected: the yielded messages and the terminal error, combining the
per-line extraction with the exit correlation. -/
def receiveMessages (stdout_lines : List (List Char)) (returncode : Option Int)
    (stderr_lines : List (List Char)) : List JsonVal × Option SdkError :=
  let p := processLines stdout_lines
  match p.2 with
  | some t => (p.1, some (.decodeError t))
  | none => (p.1, exitCheck returncode stderr_lines)

/-! ### `_build_command` (source lines 73-115) -/

/-- The options consulted by `_build_command` (fields and defaults as the
transport uses them; unset values are `none` / `[]` / `false`, and the
guards below reproduce Python truthiness, under which the empty string,
the empty list and `0` are all falsy). -/
structure ClaudeCodeOptions where
  system_prompt : Option String := none
  append_system_prompt : Option String := none
  allowed_tools : List String := []
  max_turns : Option Int := none
  disallowed_tools : List String := []
  model : Option String := none
  permission_prompt_tool_name : Option String := none
  permission_mode : Option String := none
  continue_conversation : Bool := false
  resume : Option String := none
  mcp_servers : List (List Char × JsonVal) := []

/-- Python truthiness of an optional string. -/
def strTruthy : Option String → Bool
  | none => false
  | some s => !(s = "")

/-- Python truthiness of an optional int. -/
def intTruthy : Option Int → Bool
  | none => false
  | some n => !(n = 0)

/-- Conditional `cmd.extend([flag, value])` for an optional string. -/
def strFlag (flag : String) (o : Option String) : List String :=
  if strTruthy o then [flag, o.getD ""] else []

/-- Conditional `cmd.extend([flag, str(value)])` for an optional int. -/
def intFlag (flag : String) (o : Option Int) : List String :=
  if intTruthy o then [flag, toString (o.getD 0)] else []

/-- Conditional `cmd.extend([flag, ",".join(value)])` for a tool list. -/
def listFlag (flag : String) (l : List String) : List String :=
  if l.isEmpty then [] else [flag, String.intercalate "," l]

/-- Model of `_build_command`: the fixed streaming flags, the conditional
flags in source order, then `--print` and the prompt. -/
def build_command (cli_path : String) (prompt : String)
    (options : ClaudeCodeOptions) : List String :=
  [cli_path, "--output-format", "stream-json", "--verbose"]
    ++ strFlag "--system-prompt" options.system_prompt
    ++ strFlag "--append-system-prompt" options.append_system_prompt
    ++ listFlag "--allowedTools" options.allowed_tools
    ++ intFlag "--max-turns" options.max_turns
    ++ listFlag "--disallowedTools" options.disallowed_tools
    ++ strFlag "--model" options.model
    ++ strFlag "--permission-prompt-tool" options.permission_prompt_tool_name
    ++ strFlag "--permission-mode" options.permission_mode
    ++ (if options.continue_conversation then ["--continue"] else [])
    ++ strFlag "--resume" options.resume
    ++ (if options.mcp_servers.isEmpty then []
        else ["--mcp-config",
              String.mk (encodeVal (.obj
                [(['m', 'c', 'p', 'S', 'e', 'r', 'v', 'e', 'r', 's'],
                  .obj options.mcp_servers)]))])
    ++ ["--print", prompt]

/-- Decides whether `pat` occurs as a (not necessarily contiguous)
subsequence of `l`, the sense in which an argv "contains flags in order". -/
def inOrder (pat l : List String) : Bool :=
  match pat, l with
  | [], _ => true
  | _ :: _, [] => false
  | p :: ps, x :: xs => if p = x then inOrder ps xs else inOrder (p :: ps) xs

/-! ### Process lifecycle (source lines 117-164, 169-172, 261-263) -/

/-- The externally visible state of one subprocess handle: its return code,
`none` while the process is still running. -/
structure ProcHandle where
  returncode : Option Int
deriving Repr

/-- The mutable transport state: the optional process handle and whether
the two text stream wrappers are set. -/
structure TransportState where
  process : Option ProcHandle
  stdout_stream : Bool
  stderr_stream : Bool
deriving Repr

/-- State after `__init__`. -/
def initState : TransportState :=
  { process := none, stdout_stream := false, stderr_stream := false }

/-- Outcome of the `anyio.open_process` call, an input of the model: the
spawn may succeed (with the given handle and pipe availability), fail with
`FileNotFoundError`, or fail with any other exception. -/
inductive SpawnOutcome where
  | ok (h : ProcHandle) (has_stdout has_stderr : Bool) : SpawnOutcome
  | fileNotFound : SpawnOutcome
  | otherFailure : SpawnOutcome

/-- Model of `connect`: an early return when a handle exists, otherwise the
spawn translated into state or into `CLINotFoundError` / `CLIConnectionError`. -/
def connect (s : TransportState) (sp : SpawnOutcome) :
    Except SdkError TransportState :=
  match s.process with
  | some _ => .ok s
  | none =>
      match sp with
      | .ok h so se =>
          .ok { process := some h, stdout_stream := so, stderr_stream := se }
      | .fileNotFound => .error .notFound
      | .otherFailure => .error .connectionError

/-- How the OS resolves the termination sequence of `disconnect` when the
process has not yet exited, an input of the model: graceful exit within the
5-second budget, timeout then kill, or the tolerated `ProcessLookupError`
race.  Every branch is caught by the source's `try`/`except`. -/
inductive TermBehavior where
  | graceful : TermBehavior
  | timeoutThenKill : TermBehavior
  | lookupRace : TermBehavior

/-- Model of `disconnect`: an early return when no handle exists; otherwise
terminate (under any of the tolerated behaviours) and clear the handle and
both stream references.  No branch raises. -/
def disconnect (s : TransportState) (b : TermBehavior) :
    Except SdkError TransportState :=
  match s.process with
  | none => .ok s
  | some h =>
      if h.returncode = none then
        match b with
        | .graceful =>
            .ok { process := none, stdout_stream := false, stderr_stream := false }
        | .timeoutThenKill =>
            .ok { process := none, stdout_stream := false, stderr_stream := false }
        | .lookupRace =>
            .ok { process := none, stdout_stream := false, stderr_stream := false }
      else
        .ok { process := none, stdout_stream := false, stderr_stream := false }

/-- The guard at the top of `receive_messages` (lines 171-172). -/
def receiveMessagesGuard (s : TransportState) : Except SdkError Unit :=
  if s.process.isNone || !s.stdout_stream then .error .connectionError
  else .ok ()

/-- Model of `is_connected`. -/
def is_connected (s : TransportState) : Bool :=
  s.process.isSome && (s.process.map ProcHandle.returncode).getD none = none

/-- The transport states reachable through the public lifecycle: the fresh
state, anything `connect` can produce, anything `disconnect` can produce,
and a process exit updating the return code in place. -/
inductive Reachable : TransportState → Prop where
  | init : Reachable initState
  | connectStep (s : TransportState) (sp : SpawnOutcome) (s' : TransportState) :
      Reachable s → connect s sp = .ok s' → Reachable s'
  | disconnectStep (s : TransportState) (b : TermBehavior) (s' : TransportState) :
      Reachable s → disconnect s b = .ok s' → Reachable s'
  | exitStep (s : TransportState) (h : ProcHandle) (rc : Int) :
      Reachable s → s.process = some h →
      Reachable { s with process := some { returncode := some rc } }

/-! ### Derived notions used by the theorem statements -/

/-- Is the value a JSON object? -/
def isObjVal : JsonVal → Bool
  | .obj _ => true
  | _ => false

/-- First non-whitespace character of a slice, if any. -/
def firstNonWs (s : List Char) : Option Char :=
  (s.dropWhile isStripWs).head?

/-- Is every character scanner-neutral, i.e. not a quote and not a brace?
Such characters leave a depth-0, outside-string scanner state unchanged. -/
def neutralStr (s : List Char) : Bool :=
  s.all (fun c => !(c = '"') && !(c = '{') && !(c = '}'))

/-- A line assembled from scanner-neutral separators followed by encoded
values: `sep₁ ++ enc v₁ ++ sep₂ ++ enc v₂ ++ ...`. -/
def partsText : List (List Char × JsonVal) → List Char
  | [] => []
  | (s, v) :: tl => s ++ encodeVal v ++ partsText tl

/-- The index ranges the scanner reports for `partsText`, starting at
offset `i`. -/
def rangesFrom (i : Nat) : List (List Char × JsonVal) → List (Nat × Nat)
  | [] => []
  | (s, v) :: tl =>
      (i + s.length, i + s.length + (encodeVal v).length)
        :: rangesFrom (i + s.length + (encodeVal v).length) tl

/-- The parts decomposition of a rendered nonempty array: the opening
bracket rides on the first element, a `", "` on each later one. -/
def arrParts : List JsonVal → List (List Char × JsonVal)
  | [] => []
  | v :: tl => (['['], v) :: tl.map (fun w => ([',', ' '], w))

/-- The remainder cannot extend a decimal literal. -/
def digitBoundary : List Char → Bool
  | [] => true
  | c :: _ => !isDigitCh c

/-! ## Lemmas

First a structural induction principle for the nested inductive
`JsonVal`, by strong induction on `sizeOf`. -/

theorem JsonVal.inductionOn {P : JsonVal → Prop}
    (hnull : P .null) (hbool : ∀ b, P (.bool b)) (hnum : ∀ n, P (.num n))
    (hstr : ∀ s, P (.str s))
    (harr : ∀ xs, (∀ x ∈ xs, P x) → P (.arr xs))
    (hobj : ∀ kvs, (∀ kv ∈ kvs, P kv.2) → P (.obj kvs)) :
    ∀ v, P v := by
  suffices h : ∀ n v, sizeOf v ≤ n → P v from fun v => h (sizeOf v) v le_rfl
  intro n
  induction n with
  | zero =>
      intro v hv
      cases v <;> simp_arith at hv
  | succ n ih =>
      intro v hv
      match v with
      | .null => exact hnull
      | .bool b => exact hbool b
      | .num m => exact hnum m
      | .str s => exact hstr s
      | .arr xs =>
          refine harr xs (fun x hx => ih x ?_)
          have hlt := List.sizeOf_lt_of_mem hx
          simp_arith at hv
          omega
      | .obj kvs =>
          refine hobj kvs (fun kv hkv => ih kv.2 ?_)
          have hlt := List.sizeOf_lt_of_mem hkv
          have hkv2 : sizeOf kv.2 < sizeOf kv := by
            cases kv with
            | mk k w => simp_arith
          simp_arith at hv
          omega

/-! ### Facts about `str.strip` -/

theorem dropWhile_head_false {α : Type} {p : α → Bool} :
    ∀ {l : List α} {h : α}, (l.dropWhile p).head? = some h → p h = false := by
  intro l
  induction l with
  | nil => intro h hh; simp [List.dropWhile] at hh
  | cons a t ih =>
      intro h hh
      rw [List.dropWhile_cons] at hh
      by_cases hpa : p a = true
      · exact ih (by simpa [hpa] using hh)
      · simp [hpa] at hh
        subst hh
        simpa using hpa

theorem dropWhile_eq_self_of_head {α : Type} {p : α → Bool} {l : List α}
    (h : ∀ c, l.head? = some c → p c = false) : l.dropWhile p = l := by
  cases l with
  | nil => rfl
  | cons a t =>
      have := h a rfl
      simp [List.dropWhile_cons, this]

theorem dropWhile_ne_nil_of_mem {α : Type} {p : α → Bool} {l : List α} {x : α}
    (hx : x ∈ l) (hpx : p x = false) : l.dropWhile p ≠ [] := by
  induction l with
  | nil => cases hx
  | cons a t ih =>
      rw [List.dropWhile_cons]
      by_cases hpa : p a = true
      · have hxt : x ∈ t := by
          rcases List.mem_cons.mp hx with rfl | hmem
          · rw [hpa] at hpx; cases hpx
          · exact hmem
        simpa [hpa] using ih hxt
      · simp [hpa]

theorem getLast?_dropWhile {α : Type} {p : α → Bool} {l : List α}
    (h : l.dropWhile p ≠ []) : (l.dropWhile p).getLast? = l.getLast? := by
  induction l with
  | nil => rfl
  | cons a t ih =>
      rw [List.dropWhile_cons]
      rw [List.dropWhile_cons] at h
      by_cases hpa : p a = true
      · have ht : t.dropWhile p ≠ [] := by simpa [hpa] using h
        have htne : t ≠ [] := by
          intro hnil
          exact ht (by simp [hnil, List.dropWhile])
        rw [if_pos hpa, ih ht]
        cases t with
        | nil => cases htne rfl
        | cons b l => rw [List.getLast?_cons_cons]
      · simp [hpa]

theorem stripChars_eq_self {xs : List Char}
    (hh : ∀ c, xs.head? = some c → isStripWs c = false)
    (hl : ∀ c, xs.getLast? = some c → isStripWs c = false) :
    stripChars xs = xs := by
  unfold stripChars
  rw [dropWhile_eq_self_of_head hh]
  rw [dropWhile_eq_self_of_head (by simpa using hl)]
  exact xs.reverse_reverse

theorem stripChars_ne_nil_head {xs : List Char} {c : Char}
    (hc : xs.head? = some c) (hws : isStripWs c = false) : stripChars xs ≠ [] := by
  unfold stripChars
  rw [dropWhile_eq_self_of_head (l := xs)
    (fun d hd => by rw [hd] at hc; cases hc; exact hws)]
  have hmem : c ∈ xs.reverse := by
    simp only [List.mem_reverse]
    exact List.mem_of_mem_head? hc
  intro hcontra
  exact dropWhile_ne_nil_of_mem hmem hws (by simpa using hcontra)

theorem stripChars_head_not_ws {xs : List Char} {c : Char}
    (hc : (stripChars xs).head? = some c) : isStripWs c = false := by
  unfold stripChars at hc
  rw [List.head?_reverse] at hc
  have hne : (xs.dropWhile isStripWs).reverse.dropWhile isStripWs ≠ [] := by
    intro hnil
    rw [hnil] at hc
    cases hc
  rw [getLast?_dropWhile hne, List.getLast?_reverse] at hc
  exact dropWhile_head_false hc

/-! ### Substrings of concatenations -/

theorem sliceOf_append (a b c : List Char) :
    sliceOf (a ++ b ++ c) (a.length, a.length + b.length) = b := by
  unfold sliceOf
  rw [List.append_assoc, List.drop_left]
  simp [List.take_left]

/-! ### Single steps of the scanner -/

theorem scanAux_cons (st : ScanSt) (i : Nat) (c : Char) (cs : List Char) :
    scanAux st i (c :: cs) = scanAux (scanChar st i c) (i + 1) cs := rfl

theorem scanAux_append (st : ScanSt) (i : Nat) (xs ys : List Char) :
    scanAux st i (xs ++ ys) = scanAux (scanAux st i xs) (i + xs.length) ys := by
  induction xs generalizing st i with
  | nil => simp [scanAux]
  | cons c t ih =>
      rw [List.cons_append, scanAux_cons, scanAux_cons, ih]
      simp [Nat.add_assoc, Nat.add_comm 1 t.length]

theorem scanChar_escaped {st : ScanSt} (he : st.escape_next = true)
    (i : Nat) (c : Char) :
    scanChar st i c = { st with escape_next := false } := by
  simp [scanChar, he]

theorem scanChar_backslash_in_string {st : ScanSt} (hs : st.in_string = true)
    (he : st.escape_next = false) (i : Nat) :
    scanChar st i '\\' = { st with escape_next := true } := by
  simp [scanChar, hs, he]

theorem scanChar_quote {st : ScanSt} (he : st.escape_next = false) (i : Nat) :
    scanChar st i '"' = { st with in_string := !st.in_string } := by
  simp [scanChar, he]

theorem scanChar_plain_in_string {st : ScanSt} (hs : st.in_string = true)
    (he : st.escape_next = false) {c : Char} (h1 : c ≠ '"') (h2 : c ≠ '\\')
    (i : Nat) : scanChar st i c = st := by
  simp [scanChar, hs, he, h1, h2]

theorem scanChar_neutral {st : ScanSt} (hs : st.in_string = false)
    (he : st.escape_next = false) {c : Char} (h1 : c ≠ '"') (h2 : c ≠ '{')
    (h3 : c ≠ '}') (i : Nat) : scanChar st i c = st := by
  simp [scanChar, hs, he, h1, h2, h3]

theorem scanChar_open_brace {st : ScanSt} (hs : st.in_string = false)
    (he : st.escape_next = false) (i : Nat) :
    scanChar st i '{' =
      if st.brace_count = 0 then
        { st with start_pos := i, brace_count := st.brace_count + 1 }
      else { st with brace_count := st.brace_count + 1 } := by
  simp [scanChar, hs, he]

theorem scanChar_close_brace {st : ScanSt} (hs : st.in_string = false)
    (he : st.escape_next = false) (i : Nat) :
    scanChar st i '}' =
      if st.brace_count - 1 = 0 then
        { st with brace_count := st.brace_count - 1,
                  objs := st.objs ++ [(st.start_pos, i + 1)] }
      else { st with brace_count := st.brace_count - 1 } := by
  simp [scanChar, hs, he]

/-! ### Scanning neutral text and string literals leaves the state alone -/

theorem scanAux_neutralStr :
    ∀ (xs : List Char), neutralStr xs = true →
      ∀ {st : ScanSt}, st.in_string = false → st.escape_next = false →
        ∀ (i : Nat), scanAux st i xs = st := by
  intro xs
  induction xs with
  | nil => intro _ st _ _ i; rfl
  | cons c t ih =>
      intro hx st hs he i
      simp only [neutralStr, List.all_cons, Bool.and_eq_true, Bool.not_eq_true',
        decide_eq_false_iff_not] at hx
      rw [scanAux_cons, scanChar_neutral hs he hx.1.1.1 hx.1.1.2 hx.1.2]
      exact ih (by simpa [neutralStr] using hx.2) hs he (i + 1)

theorem scanAux_escStr :
    ∀ (s : List Char) {st : ScanSt}, st.in_string = true →
      st.escape_next = false → ∀ (i : Nat), scanAux st i (escStr s) = st := by
  intro s
  induction s with
  | nil => intro st _ _ i; rfl
  | cons c t ih =>
      intro st hs he i
      show scanAux st i (escCh c ++ escStr t) = st
      have hclean :
          ({ { st with escape_next := true } with escape_next := false } : ScanSt)
            = st := by
        cases st
        simp_all
      by_cases h1 : c = '"'
      · subst h1
        rw [show escCh '"' = ['\\', '"'] from rfl, List.cons_append,
          List.cons_append, List.nil_append, scanAux_cons, scanAux_cons,
          scanChar_backslash_in_string hs he,
          scanChar_escaped (by simp) (i + 1) '"', hclean]
        exact ih hs he (i + 2)
      · by_cases h2 : c = '\\'
        · subst h2
          rw [show escCh '\\' = ['\\', '\\'] from rfl, List.cons_append,
            List.cons_append, List.nil_append, scanAux_cons, scanAux_cons,
            scanChar_backslash_in_string hs he,
            scanChar_escaped (by simp) (i + 1) '\\', hclean]
          exact ih hs he (i + 2)
        · rw [show escCh c = [c] from by simp [escCh, h1, h2],
            List.cons_append, List.nil_append, scanAux_cons,
            scanChar_plain_in_string hs he h1 h2]
          exact ih hs he (i + 1)

theorem scanAux_strLit {st : ScanSt} (hs : st.in_string = false)
    (he : st.escape_next = false) (s : List Char) (i : Nat) :
    scanAux st i ('"' :: (escStr s ++ ['"'])) = st := by
  rw [scanAux_cons, scanChar_quote he, scanAux_append]
  rw [scanAux_escStr s (by simpa using hs) (by simpa using he)]
  rw [scanAux_cons, scanChar_quote (by simpa using he)]
  cases st
  simp_all [scanAux]

/-! ### Digit characters are scanner-neutral -/

theorem digitCh_isDigit {d : Nat} (h : d < 10) : isDigitCh (digitCh d) = true := by
  interval_cases d <;> decide

theorem natDigs_all_digit : ∀ (m : Nat), ∀ c ∈ natDigs m, isDigitCh c = true := by
  intro m
  induction m using Nat.strong_induction_on with
  | _ m ih =>
      intro c hc
      rw [natDigs] at hc
      by_cases h : m < 10
      · rw [if_pos h] at hc
        rw [List.mem_singleton] at hc
        subst hc
        exact digitCh_isDigit h
      · rw [if_neg h] at hc
        rcases List.mem_append.mp hc with hm | hm
        · exact ih (m / 10) (by omega) c hm
        · rw [List.mem_singleton] at hm
          subst hm
          exact digitCh_isDigit (Nat.mod_lt _ (by omega))

theorem digit_not_special {c : Char} (h : isDigitCh c = true) :
    c ≠ '"' ∧ c ≠ '{' ∧ c ≠ '}' := by
  refine ⟨?_, ?_, ?_⟩ <;> rintro rfl <;> exact absurd h (by decide)

theorem neutralStr_natDigs (m : Nat) : neutralStr (natDigs m) = true := by
  rw [neutralStr, List.all_eq_true]
  intro c hc
  have hd := digit_not_special (natDigs_all_digit m c hc)
  simp [hd.1, hd.2.1, hd.2.2]

theorem neutralStr_intChars (n : Int) : neutralStr (intChars n) = true := by
  rw [intChars]
  by_cases h : n < 0
  · rw [if_pos h]
    rw [neutralStr, List.all_cons]
    have := neutralStr_natDigs n.natAbs
    rw [neutralStr] at this
    simp [this]
  · rw [if_neg h]
    exact neutralStr_natDigs n.natAbs

/-! ### Scanning an encoded value strictly inside an object emits nothing -/

theorem scanAux_encodeArr_deep
    (ys : List JsonVal)
    (hy : ∀ y ∈ ys, ∀ (b : Int), 1 ≤ b → ∀ (p : Nat) (os : List (Nat × Nat)) (i : Nat),
      scanAux ⟨b, false, false, p, os⟩ i (encodeVal y) = ⟨b, false, false, p, os⟩) :
    ∀ (b : Int), 1 ≤ b → ∀ (p : Nat) (os : List (Nat × Nat)) (i : Nat),
      scanAux ⟨b, false, false, p, os⟩ i (encodeArr ys) = ⟨b, false, false, p, os⟩ := by
  induction ys with
  | nil => intro b hb p os i; rfl
  | cons v t ih =>
      intro b hb p os i
      cases t with
      | nil =>
          rw [show encodeArr [v] = encodeVal v from rfl]
          exact hy v (by simp) b hb p os i
      | cons w tl =>
          rw [show encodeArr (v :: w :: tl)
              = encodeVal v ++ ',' :: ' ' :: encodeArr (w :: tl) from rfl]
          rw [scanAux_append, hy v (by simp) b hb p os i]
          rw [scanAux_cons, scanChar_neutral rfl rfl (by decide) (by decide) (by decide)]
          rw [scanAux_cons, scanChar_neutral rfl rfl (by decide) (by decide) (by decide)]
          exact ih (fun y hyy => hy y (by simp [hyy])) b hb p os _

theorem scanAux_encodeObj_deep
    (ms : List (List Char × JsonVal))
    (hm : ∀ kv ∈ ms, ∀ (b : Int), 1 ≤ b → ∀ (p : Nat) (os : List (Nat × Nat)) (i : Nat),
      scanAux ⟨b, false, false, p, os⟩ i (encodeVal kv.2) = ⟨b, false, false, p, os⟩) :
    ∀ (b : Int), 1 ≤ b → ∀ (p : Nat) (os : List (Nat × Nat)) (i : Nat),
      scanAux ⟨b, false, false, p, os⟩ i (encodeObj ms) = ⟨b, false, false, p, os⟩ := by
  induction ms with
  | nil => intro b hb p os i; rfl
  | cons kv t ih =>
      obtain ⟨k, v⟩ := kv
      intro b hb p os i
      cases t with
      | nil =>
          rw [show encodeObj [(k, v)]
              = ('"' :: (escStr k ++ ['"'])) ++ ':' :: ' ' :: encodeVal v by
            simp [encodeObj]]
          rw [scanAux_append, scanAux_strLit rfl rfl]
          rw [scanAux_cons, scanChar_neutral rfl rfl (by decide) (by decide) (by decide)]
          rw [scanAux_cons, scanChar_neutral rfl rfl (by decide) (by decide) (by decide)]
          exact hm (k, v) (by simp) b hb p os _
      | cons kv2 tl =>
          rw [show encodeObj ((k, v) :: kv2 :: tl)
              = ('"' :: (escStr k ++ ['"'])) ++ ':' :: ' ' :: (encodeVal v
                  ++ ',' :: ' ' :: encodeObj (kv2 :: tl)) by
            simp [encodeObj]]
          rw [scanAux_append, scanAux_strLit rfl rfl]
          rw [scanAux_cons, scanChar_neutral rfl rfl (by decide) (by decide) (by decide)]
          rw [scanAux_cons, scanChar_neutral rfl rfl (by decide) (by decide) (by decide)]
          rw [scanAux_append, hm (k, v) (by simp) b hb p os _]
          rw [scanAux_cons, scanChar_neutral rfl rfl (by decide) (by decide) (by decide)]
          rw [scanAux_cons, scanChar_neutral rfl rfl (by decide) (by decide) (by decide)]
          exact ih (fun y hyy => hm y (by simp [hyy])) b hb p os _

theorem scanAux_encodeVal_deep :
    ∀ (v : JsonVal) (b : Int), 1 ≤ b → ∀ (p : Nat) (os : List (Nat × Nat)) (i : Nat),
      scanAux ⟨b, false, false, p, os⟩ i (encodeVal v) = ⟨b, false, false, p, os⟩ := by
  intro v
  induction v using JsonVal.inductionOn with
  | hnull =>
      intro b hb p os i
      exact scanAux_neutralStr _ (by decide) rfl rfl i
  | hbool bb =>
      intro b hb p os i
      cases bb <;> exact scanAux_neutralStr _ (by decide) rfl rfl i
  | hnum n =>
      intro b hb p os i
      exact scanAux_neutralStr _ (neutralStr_intChars n) rfl rfl i
  | hstr s =>
      intro b hb p os i
      exact scanAux_strLit rfl rfl s i
  | harr xs ihx =>
      intro b hb p os i
      rw [show encodeVal (.arr xs) = '[' :: (encodeArr xs ++ [']']) from rfl]
      rw [scanAux_cons, scanChar_neutral rfl rfl (by decide) (by decide) (by decide)]
      rw [scanAux_append, scanAux_encodeArr_deep xs ihx b hb p os _]
      rw [scanAux_cons, scanChar_neutral rfl rfl (by decide) (by decide) (by decide)]
      rfl
  | hobj kvs ihk =>
      intro b hb p os i
      rw [show encodeVal (.obj kvs) = '{' :: (encodeObj kvs ++ ['}']) from rfl]
      rw [scanAux_cons, scanChar_open_brace rfl rfl, if_neg (by omega : ¬ (b = 0))]
      rw [scanAux_append]
      show scanAux (scanAux (⟨b + 1, false, false, p, os⟩ : ScanSt) (i + 1)
        (encodeObj kvs)) (i + 1 + (encodeObj kvs).length) ['}']
        = (⟨b, false, false, p, os⟩ : ScanSt)
      rw [scanAux_encodeObj_deep kvs ihk (b + 1) (by omega) p os _]
      rw [scanAux_cons, scanChar_close_brace rfl rfl, if_neg (by omega : ¬ (b + 1 - 1 = 0))]
      show (⟨b + 1 - 1, false, false, p, os⟩ : ScanSt) = _
      rw [show (b + 1 - 1 : Int) = b from by omega]

/-! ### Scanning an encoded object at depth 0 emits exactly its own span -/

theorem scanAux_encodeVal_top (kvs : List (List Char × JsonVal)) (p : Nat)
    (os : List (Nat × Nat)) (i : Nat) :
    scanAux ⟨0, false, false, p, os⟩ i (encodeVal (.obj kvs))
      = ⟨0, false, false, i, os ++ [(i, i + (encodeVal (.obj kvs)).length)]⟩ := by
  rw [show encodeVal (.obj kvs) = '{' :: (encodeObj kvs ++ ['}']) from rfl]
  rw [scanAux_cons, scanChar_open_brace rfl rfl, if_pos (rfl : (0 : Int) = 0)]
  rw [scanAux_append]
  show scanAux (scanAux (⟨0 + 1, false, false, i, os⟩ : ScanSt) (i + 1)
    (encodeObj kvs)) (i + 1 + (encodeObj kvs).length) ['}'] = _
  rw [scanAux_encodeObj_deep kvs (fun kv _ => scanAux_encodeVal_deep kv.2)
    (0 + 1) (by omega) i os _]
  rw [scanAux_cons, scanChar_close_brace rfl rfl,
    if_pos (by omega : (0 + 1 - 1 : Int) = 0)]
  show (⟨0 + 1 - 1, false, false, i,
    os ++ [(i, i + 1 + (encodeObj kvs).length + 1)]⟩ : ScanSt) = _
  have h1 : (0 + 1 - 1 : Int) = 0 := by omega
  have h2 : i + 1 + (encodeObj kvs).length + 1
      = i + ('{' :: (encodeObj kvs ++ ['}'])).length := by
    simp
    omega
  rw [h1, h2]

/-! ### Scanning a whole line of separators and encoded objects -/

theorem scanAux_partsText :
    ∀ (parts : List (List Char × JsonVal)),
      (∀ pr ∈ parts, neutralStr pr.1 = true ∧ isObjVal pr.2 = true) →
      ∀ (p : Nat) (os : List (Nat × Nat)) (i : Nat),
        ∃ p', scanAux ⟨0, false, false, p, os⟩ i (partsText parts)
          = ⟨0, false, false, p', os ++ rangesFrom i parts⟩ := by
  intro parts
  induction parts with
  | nil =>
      intro _ p os i
      exact ⟨p, by simp [partsText, rangesFrom, scanAux]⟩
  | cons pr tl ih =>
      obtain ⟨s, v⟩ := pr
      intro hp p os i
      obtain ⟨hneu, hobj⟩ := hp (s, v) (by simp)
      cases v with
      | obj kvs =>
          rw [show partsText ((s, .obj kvs) :: tl)
              = s ++ (encodeVal (.obj kvs) ++ partsText tl) from by
            simp [partsText]]
          rw [scanAux_append, scanAux_neutralStr s hneu rfl rfl i, scanAux_append]
          rw [scanAux_encodeVal_top kvs p os (i + s.length)]
          obtain ⟨p', hp'⟩ := ih (fun y hy => hp y (by simp [hy]))
            (i + s.length) (os ++ [(i + s.length,
              i + s.length + (encodeVal (.obj kvs)).length)])
            (i + s.length + (encodeVal (.obj kvs)).length)
          refine ⟨p', ?_⟩
          rw [hp']
          rw [show rangesFrom i ((s, JsonVal.obj kvs) :: tl)
              = (i + s.length, i + s.length + (encodeVal (.obj kvs)).length)
                :: rangesFrom (i + s.length + (encodeVal (.obj kvs)).length) tl
              from rfl]
          simp
      | null => exact absurd hobj (by simp [isObjVal])
      | bool b => exact absurd hobj (by simp [isObjVal])
      | num n => exact absurd hobj (by simp [isObjVal])
      | str s2 => exact absurd hobj (by simp [isObjVal])
      | arr xs => exact absurd hobj (by simp [isObjVal])

theorem rangesFrom_slices :
    ∀ (parts : List (List Char × JsonVal)) (pre suffix line : List Char),
      line = pre ++ (partsText parts ++ suffix) →
      (rangesFrom pre.length parts).map (sliceOf line)
        = parts.map (fun pr => encodeVal pr.2) := by
  intro parts
  induction parts with
  | nil => intro pre suffix line _; rfl
  | cons pr tl ih =>
      obtain ⟨s, v⟩ := pr
      intro pre suffix line hline
      have hline2 : line = (pre ++ s) ++ encodeVal v ++ (partsText tl ++ suffix) := by
        simp only [hline, partsText, List.append_assoc]
      have hfirst : sliceOf line
          (pre.length + s.length, pre.length + s.length + (encodeVal v).length)
          = encodeVal v := by
        have hl : pre.length + s.length = (pre ++ s).length := by
          simp
        rw [hline2, hl]
        exact sliceOf_append _ _ _
      have hrest := ih (pre ++ s ++ encodeVal v) suffix line
        (by simp only [hline, partsText, List.append_assoc])
      rw [show rangesFrom pre.length ((s, v) :: tl)
          = (pre.length + s.length, pre.length + s.length + (encodeVal v).length)
            :: rangesFrom (pre.length + s.length + (encodeVal v).length) tl
          from rfl]
      rw [List.map_cons, hfirst]
      rw [show (pre.length + s.length + (encodeVal v).length)
          = (pre ++ s ++ encodeVal v).length from by simp; omega]
      rw [hrest]
      rfl

/-! ### Emission does not depend on `start_pos` or on the collected spans -/

theorem scanChar_objs_cases (st : ScanSt) (i : Nat) (c : Char) :
    (scanChar st i c).objs = st.objs
    ∨ (scanChar st i c).objs = st.objs ++ [(st.start_pos, i + 1)] := by
  unfold scanChar
  split_ifs <;> simp

theorem scanAux_objs_mono :
    ∀ (cs : List Char) (st : ScanSt) (i : Nat),
      ∃ t, (scanAux st i cs).objs = st.objs ++ t := by
  intro cs
  induction cs with
  | nil => intro st i; exact ⟨[], by simp [scanAux]⟩
  | cons c cs ih =>
      intro st i
      rw [scanAux_cons]
      obtain ⟨t, ht⟩ := ih (scanChar st i c) (i + 1)
      rcases scanChar_objs_cases st i c with h | h
      · exact ⟨t, by rw [ht, h]⟩
      · exact ⟨(st.start_pos, i + 1) :: t, by rw [ht, h]; simp⟩

theorem scanChar_sim (st₁ st₂ : ScanSt) (i₁ i₂ : Nat) (c : Char)
    (hb : st₁.brace_count = st₂.brace_count)
    (hs : st₁.in_string = st₂.in_string)
    (he : st₁.escape_next = st₂.escape_next) :
    (scanChar st₁ i₁ c).brace_count = (scanChar st₂ i₂ c).brace_count
    ∧ (scanChar st₁ i₁ c).in_string = (scanChar st₂ i₂ c).in_string
    ∧ (scanChar st₁ i₁ c).escape_next = (scanChar st₂ i₂ c).escape_next
    ∧ ((scanChar st₂ i₂ c).objs = st₂.objs →
        (scanChar st₁ i₁ c).objs = st₁.objs) := by
  unfold scanChar
  rw [hb, hs, he]
  split_ifs <;> simp_all

theorem scanAux_sim :
    ∀ (cs : List Char) (st₁ st₂ : ScanSt) (i₁ i₂ : Nat),
      st₁.brace_count = st₂.brace_count → st₁.in_string = st₂.in_string →
      st₁.escape_next = st₂.escape_next →
      (scanAux st₂ i₂ cs).objs = st₂.objs →
      (scanAux st₁ i₁ cs).objs = st₁.objs := by
  intro cs
  induction cs with
  | nil => intro st₁ st₂ i₁ i₂ _ _ _ _; rfl
  | cons c cs ih =>
      intro st₁ st₂ i₁ i₂ hb hs he hobjs
      rw [scanAux_cons] at hobjs ⊢
      obtain ⟨t₂, ht₂⟩ := scanAux_objs_mono cs (scanChar st₂ i₂ c) (i₂ + 1)
      obtain ⟨hb', hs', he', hstep⟩ := scanChar_sim st₁ st₂ i₁ i₂ c hb hs he
      have hch2 : (scanChar st₂ i₂ c).objs = st₂.objs := by
        rcases scanChar_objs_cases st₂ i₂ c with h | h
        · exact h
        · exfalso
          rw [ht₂, h] at hobjs
          have hlen := congrArg List.length hobjs
          simp at hlen
      have ht2nil : t₂ = [] := by
        rw [hch2] at ht₂
        rw [ht₂] at hobjs
        have hlen := congrArg List.length hobjs
        simp at hlen
        exact hlen
      have hfin2 : (scanAux (scanChar st₂ i₂ c) (i₂ + 1) cs).objs
          = (scanChar st₂ i₂ c).objs := by
        rw [ht₂, hch2, ht2nil, List.append_nil]
      have hmain := ih (scanChar st₁ i₁ c) (scanChar st₂ i₂ c)
        (i₁ + 1) (i₂ + 1) hb' hs' he' hfin2
      rw [hmain, hstep hch2]

/-! ### Every reported span starts at an opening brace -/

theorem scanChar_invariant (ln : List Char) (i : Nat) (c : Char) (st : ScanSt)
    (hc : ln[i]? = some c)
    (hstart : 1 ≤ st.brace_count → st.start_pos < i ∧ ln[st.start_pos]? = some '{')
    (hobjs : ∀ r ∈ st.objs, r.1 < r.2 ∧ r.2 ≤ i ∧ ln[r.1]? = some '{') :
    (1 ≤ (scanChar st i c).brace_count →
      (scanChar st i c).start_pos < i + 1
        ∧ ln[(scanChar st i c).start_pos]? = some '{')
    ∧ (∀ r ∈ (scanChar st i c).objs,
        r.1 < r.2 ∧ r.2 ≤ i + 1 ∧ ln[r.1]? = some '{') := by
  unfold scanChar
  split_ifs with h1 h2 h3 h4 h5 h6 h7 h8
  · exact ⟨fun hb => ⟨(hstart hb).1.trans (by omega), (hstart hb).2⟩,
      fun r hr => ⟨(hobjs r hr).1, (hobjs r hr).2.1.trans (by omega), (hobjs r hr).2.2⟩⟩
  · exact ⟨fun hb => ⟨(hstart hb).1.trans (by omega), (hstart hb).2⟩,
      fun r hr => ⟨(hobjs r hr).1, (hobjs r hr).2.1.trans (by omega), (hobjs r hr).2.2⟩⟩
  · exact ⟨fun hb => ⟨(hstart hb).1.trans (by omega), (hstart hb).2⟩,
      fun r hr => ⟨(hobjs r hr).1, (hobjs r hr).2.1.trans (by omega), (hobjs r hr).2.2⟩⟩
  · -- opening brace at depth 0
    refine ⟨fun _ => ⟨show i < i + 1 by omega, ?_⟩, fun r hr =>
      ⟨(hobjs r hr).1, (hobjs r hr).2.1.trans (by omega), (hobjs r hr).2.2⟩⟩
    show ln[i]? = some '{'
    rw [hc, h5]
  · -- opening brace at depth other than 0
    refine ⟨fun hb => ?_, fun r hr =>
      ⟨(hobjs r hr).1, (hobjs r hr).2.1.trans (by omega), (hobjs r hr).2.2⟩⟩
    have hb1 : 1 ≤ st.brace_count := by
      have hb2 : 1 ≤ st.brace_count + 1 := hb
      omega
    exact ⟨(hstart hb1).1.trans (by omega), (hstart hb1).2⟩
  · -- closing brace reaching depth 0: a span is emitted
    have hb1 : 1 ≤ st.brace_count := by omega
    refine ⟨fun hb => ?_, fun r hr => ?_⟩
    · have hb2 : 1 ≤ st.brace_count - 1 := hb
      omega
    · have hr2 : r ∈ st.objs ++ [(st.start_pos, i + 1)] := hr
      rw [List.mem_append, List.mem_singleton] at hr2
      rcases hr2 with hr3 | hr3
      · exact ⟨(hobjs r hr3).1, (hobjs r hr3).2.1.trans (by omega), (hobjs r hr3).2.2⟩
      · subst hr3
        exact ⟨by have := (hstart hb1).1; omega, by omega, (hstart hb1).2⟩
  · -- closing brace at another depth
    refine ⟨fun hb => ?_, fun r hr =>
      ⟨(hobjs r hr).1, (hobjs r hr).2.1.trans (by omega), (hobjs r hr).2.2⟩⟩
    have hb1 : 1 ≤ st.brace_count := by
      have hb2 : 1 ≤ st.brace_count - 1 := hb
      omega
    exact ⟨(hstart hb1).1.trans (by omega), (hstart hb1).2⟩
  · exact ⟨fun hb => ⟨(hstart hb).1.trans (by omega), (hstart hb).2⟩,
      fun r hr => ⟨(hobjs r hr).1, (hobjs r hr).2.1.trans (by omega), (hobjs r hr).2.2⟩⟩
  · exact ⟨fun hb => ⟨(hstart hb).1.trans (by omega), (hstart hb).2⟩,
      fun r hr => ⟨(hobjs r hr).1, (hobjs r hr).2.1.trans (by omega), (hobjs r hr).2.2⟩⟩

theorem scanAux_invariant :
    ∀ (cs : List Char) (ln : List Char) (i : Nat) (st : ScanSt),
      cs = ln.drop i →
      (1 ≤ st.brace_count → st.start_pos < i ∧ ln[st.start_pos]? = some '{') →
      (∀ r ∈ st.objs, r.1 < r.2 ∧ r.2 ≤ i ∧ ln[r.1]? = some '{') →
      ∀ r ∈ (scanAux st i cs).objs,
        r.1 < r.2 ∧ r.2 ≤ i + cs.length ∧ ln[r.1]? = some '{' := by
  intro cs
  induction cs with
  | nil =>
      intro ln i st _ _ hobjs r hr
      exact ⟨(hobjs r hr).1, (hobjs r hr).2.1.trans (by omega), (hobjs r hr).2.2⟩
  | cons c cs ih =>
      intro ln i st hdrop hstart hobjs r hr
      have hc : ln[i]? = some c := by
        have h0 : (ln.drop i)[0]? = some c := by
          rw [← hdrop]
          simp
        rw [List.getElem?_drop] at h0
        simpa using h0
      have hdrop' : cs = ln.drop (i + 1) := by
        have := congrArg (List.drop 1) hdrop
        simpa [List.drop_drop, Nat.add_comm] using this
      obtain ⟨hstart', hobjs'⟩ := scanChar_invariant ln i c st hc hstart hobjs
      rw [scanAux_cons] at hr
      have := ih ln (i + 1) (scanChar st i c) hdrop' hstart' hobjs' r hr
      exact ⟨this.1, by have := this.2.1; simp at this ⊢; omega, this.2.2⟩

theorem scanObjs_spec (ln : List Char) :
    ∀ r ∈ scanObjs ln, r.1 < r.2 ∧ r.2 ≤ ln.length ∧ ln[r.1]? = some '{' := by
  intro r hr
  have := scanAux_invariant ln ln 0 initScan (by simp)
    (by intro h; exact absurd h (by simp [initScan]))
    (by intro r hr; exact absurd hr (by simp [initScan])) r hr
  exact ⟨this.1, by have := this.2.1; omega, this.2.2⟩

theorem sliceOf_head (ln : List Char) (r : Nat × Nat)
    (h1 : r.1 < r.2) (h2 : r.2 ≤ ln.length) (h3 : ln[r.1]? = some '{') :
    (sliceOf ln r).head? = some '{' := by
  unfold sliceOf
  obtain ⟨k, hk⟩ : ∃ k, r.2 - r.1 = k + 1 := ⟨r.2 - r.1 - 1, by omega⟩
  rw [hk]
  have hdropne : ln.drop r.1 ≠ [] := by
    intro hnil
    have := congrArg List.length hnil
    simp at this
    omega
  cases hdrop : ln.drop r.1 with
  | nil => exact absurd hdrop hdropne
  | cons a t =>
      have ha : a = '{' := by
        have h0 : (ln.drop r.1)[0]? = some a := by rw [hdrop]; simp
        rw [List.getElem?_drop] at h0
        simp only [Nat.add_zero] at h0
        rw [h0] at h3
        exact Option.some_inj.mp h3
      simp [ha]

/-! ### Parsing back a rendered integer -/

theorem digitCh_toNat {d : Nat} (h : d < 10) : (digitCh d).toNat = 48 + d := by
  interval_cases d <;> decide

theorem digitCh_zero {d : Nat} (h : d < 10) (h0 : digitCh d = '0') : d = 0 := by
  interval_cases d <;> simp_all <;> exact absurd h0 (by decide)

theorem natDigs_ne_nil (m : Nat) : natDigs m ≠ [] := by
  rw [natDigs]
  by_cases h : m < 10
  · simp [h]
  · simp [h]

theorem natDigs_head_pos {m : Nat} (hm : 1 ≤ m) :
    (natDigs m).head? ≠ some '0' := by
  induction m using Nat.strong_induction_on with
  | _ m ih =>
      rw [natDigs]
      by_cases h : m < 10
      · rw [if_pos h]
        intro hc
        simp at hc
        exact absurd (digitCh_zero h hc) (by omega)
      · rw [if_neg h]
        rw [List.head?_append_of_ne_nil _ (natDigs_ne_nil (m / 10))]
        exact ih (m / 10) (by omega) (by omega)

theorem natDigs_zero_iff {m : Nat} (hc : (natDigs m).head? = some '0') :
    natDigs m = ['0'] := by
  by_cases hm : 1 ≤ m
  · exact absurd hc (natDigs_head_pos hm)
  · have : m = 0 := by omega
    subst this
    rw [natDigs]
    decide

theorem digs_foldl :
    ∀ (m a : Nat),
      (natDigs m).foldl (fun a c => 10 * a + (c.toNat - 48)) a
        = a * 10 ^ (natDigs m).length + m := by
  intro m
  induction m using Nat.strong_induction_on with
  | _ m ih =>
      intro a
      rw [natDigs]
      by_cases h : m < 10
      · rw [if_pos h]
        simp [List.foldl, digitCh_toNat h]
        omega
      · rw [if_neg h]
        rw [List.foldl_append, ih (m / 10) (by omega) a]
        simp only [List.foldl_cons, List.foldl_nil, List.length_append,
          List.length_singleton]
        rw [digitCh_toNat (Nat.mod_lt _ (by omega)), pow_succ]
        have hdm : 10 * (m / 10) + m % 10 = m := by omega
        have h48 : (48 + m % 10) - 48 = m % 10 := by omega
        rw [h48]
        calc 10 * (a * 10 ^ (natDigs (m / 10)).length + m / 10) + m % 10
            = a * (10 ^ (natDigs (m / 10)).length * 10)
              + (10 * (m / 10) + m % 10) := by ring
          _ = a * (10 ^ (natDigs (m / 10)).length * 10) + m := by rw [hdm]

theorem digsToNat_natDigs (m : Nat) : digsToNat (natDigs m) = m := by
  rw [digsToNat, digs_foldl]
  simp

theorem takeWhile_digits_append {rest : List Char} (hrest : digitBoundary rest = true) :
    ∀ {ds : List Char}, (∀ c ∈ ds, isDigitCh c = true) →
      (ds ++ rest).takeWhile isDigitCh = ds
      ∧ (ds ++ rest).dropWhile isDigitCh = rest := by
  intro ds
  induction ds with
  | nil =>
      intro _
      cases rest with
      | nil => exact ⟨rfl, rfl⟩
      | cons c t =>
          have hc : isDigitCh c = false := by
            rw [digitBoundary] at hrest
            simpa using hrest
          simp [List.takeWhile, List.dropWhile, hc]
  | cons d ds ih =>
      intro hds
      have hd : isDigitCh d = true := hds d (by simp)
      obtain ⟨h1, h2⟩ := ih (fun c hc => hds c (by simp [hc]))
      constructor
      · rw [List.cons_append, List.takeWhile_cons, if_pos hd, h1]
      · rw [List.cons_append, List.dropWhile_cons, if_pos hd, h2]

theorem parsePosNum_natDigs (m : Nat) {rest : List Char}
    (hrest : digitBoundary rest = true) :
    parsePosNum (natDigs m ++ rest) = some (m, rest) := by
  obtain ⟨htake, hdrop⟩ :=
    takeWhile_digits_append hrest (natDigs_all_digit m)
  rw [parsePosNum]
  simp only [htake, hdrop]
  rw [if_neg (by simp [natDigs_ne_nil m])]
  have hzero : (decide ((natDigs m).head? = some '0')
      && (natDigs m).length != 1) = false := by
    by_cases h0 : (natDigs m).head? = some '0'
    · rw [natDigs_zero_iff h0]
      simp
    · simp [h0]
  rw [if_neg (by simp [hzero])]
  rw [digsToNat_natDigs]

/-! ### Heads of encoded values and token dispatch -/

theorem headBlock_append (pat rest : List Char) :
    headBlock pat (pat ++ rest) = true := by
  induction pat with
  | nil => rfl
  | cons p ps ih => simp [headBlock, ih]

theorem headBlock_ne_head {p c : Char} (ps t : List Char) (h : p ≠ c) :
    headBlock (p :: ps) (c :: t) = false := by
  simp [headBlock, h]

theorem skipWs_cons_of_not {c : Char} {t : List Char} (h : isJsonWs c = false) :
    skipWs (c :: t) = c :: t := by
  simp [skipWs, h]

theorem skipWs_cons_of_ws {c : Char} {t : List Char} (h : isJsonWs c = true) :
    skipWs (c :: t) = skipWs t := by
  simp [skipWs, h]

theorem digit_props {c : Char} (h : isDigitCh c = true) :
    isJsonWs c = false ∧ isStripWs c = false ∧ c ≠ ']' ∧ c ≠ '}'
      ∧ c ≠ 'n' ∧ c ≠ 't' ∧ c ≠ 'f' ∧ c ≠ '"' ∧ c ≠ '[' ∧ c ≠ '{' ∧ c ≠ '-' := by
  refine ⟨?_, ?_, ?_, ?_, ?_, ?_, ?_, ?_, ?_, ?_, ?_⟩
  · rcases h9 : isJsonWs c with hf | ht
    · rfl
    · exfalso
      rw [isJsonWs] at h9
      rcases Bool.or_eq_true_iff.mp h9 with h9 | h9
      · rcases Bool.or_eq_true_iff.mp h9 with h9 | h9
        · rcases Bool.or_eq_true_iff.mp h9 with h9 | h9 <;>
            · have : c = _ := of_decide_eq_true h9
              subst this
              exact absurd h (by decide)
        · have : c = _ := of_decide_eq_true h9
          subst this
          exact absurd h (by decide)
      · have : c = _ := of_decide_eq_true h9
        subst this
        exact absurd h (by decide)
  · rcases h9 : isStripWs c with hf | ht
    · rfl
    · exfalso
      rw [isStripWs] at h9
      rcases Bool.or_eq_true_iff.mp h9 with h9 | h9
      · rcases Bool.or_eq_true_iff.mp h9 with h9 | h9
        · rcases Bool.or_eq_true_iff.mp h9 with h9 | h9
          · rcases Bool.or_eq_true_iff.mp h9 with h9 | h9
            · rcases Bool.or_eq_true_iff.mp h9 with h9 | h9 <;>
                · have : c = _ := of_decide_eq_true h9
                  subst this
                  exact absurd h (by decide)
            · have : c = _ := of_decide_eq_true h9
              subst this
              exact absurd h (by decide)
          · have : c = _ := of_decide_eq_true h9
            subst this
            exact absurd h (by decide)
        · have : c = _ := of_decide_eq_true h9
          subst this
          exact absurd h (by decide)
      · have : c = _ := of_decide_eq_true h9
        subst this
        exact absurd h (by decide)
  all_goals rintro rfl <;> exact absurd h (by decide)

theorem encodeVal_head_spec (v : JsonVal) :
    ∃ c t, encodeVal v = c :: t ∧ isJsonWs c = false ∧ isStripWs c = false
      ∧ c ≠ ']' ∧ c ≠ '}' := by
  cases v with
  | null => exact ⟨'n', _, rfl, by decide, by decide, by decide, by decide⟩
  | bool b =>
      cases b
      · exact ⟨'f', _, rfl, by decide, by decide, by decide, by decide⟩
      · exact ⟨'t', _, rfl, by decide, by decide, by decide, by decide⟩
  | num n =>
      rw [show encodeVal (.num n) = intChars n from rfl, intChars]
      by_cases h : n < 0
      · exact ⟨'-', _, by rw [if_pos h], by decide, by decide, by decide, by decide⟩
      · rw [if_neg h]
        cases hd : natDigs n.natAbs with
        | nil => exact absurd hd (natDigs_ne_nil _)
        | cons d t =>
            have hdig : isDigitCh d = true :=
              natDigs_all_digit n.natAbs d (by rw [hd]; simp)
            obtain ⟨p1, p2, p3, p4, _⟩ := digit_props hdig
            exact ⟨d, t, rfl, p1, p2, p3, p4⟩
  | str s => exact ⟨'"', _, rfl, by decide, by decide, by decide, by decide⟩
  | arr xs => exact ⟨'[', _, rfl, by decide, by decide, by decide, by decide⟩
  | obj kvs => exact ⟨'{', _, rfl, by decide, by decide, by decide, by decide⟩

theorem skipWs_encodeVal_append (v : JsonVal) (rest : List Char) :
    skipWs (encodeVal v ++ rest) = encodeVal v ++ rest := by
  obtain ⟨c, t, hct, hws, -, -, -⟩ := encodeVal_head_spec v
  rw [hct, List.cons_append, skipWs_cons_of_not hws]

/-! ### Parsing back a rendered string literal -/

theorem parseStrBody_escStr :
    ∀ (s : List Char), printableStr s = true →
      ∀ rest, parseStrBody (escStr s ++ '"' :: rest) = some (s, rest) := by
  intro s
  induction s with
  | nil =>
      intro _ rest
      rw [show escStr [] = [] from rfl, List.nil_append]
      rw [parseStrBody.eq_def]
      simp
  | cons c t ih =>
      intro hp rest
      rw [printableStr, List.all_cons, Bool.and_eq_true] at hp
      have hpt : printableStr t = true := hp.2
      have hpc : 32 ≤ c.toNat := by
        have := hp.1
        simp at this
        exact this.1
      show parseStrBody (escCh c ++ escStr t ++ '"' :: rest) = some (c :: t, rest)
      by_cases h1 : c = '"'
      · subst h1
        rw [show escCh '"' ++ escStr t ++ '"' :: rest
            = '\\' :: '"' :: (escStr t ++ '"' :: rest) from by simp [escCh]]
        rw [parseStrBody.eq_def]
        simp [ih hpt rest]
      · by_cases h2 : c = '\\'
        · subst h2
          rw [show escCh '\\' ++ escStr t ++ '"' :: rest
              = '\\' :: '\\' :: (escStr t ++ '"' :: rest) from by simp [escCh]]
          rw [parseStrBody.eq_def]
          simp [ih hpt rest]
        · rw [show escCh c ++ escStr t ++ '"' :: rest
              = c :: (escStr t ++ '"' :: rest) from by simp [escCh, h1, h2]]
          rw [parseStrBody.eq_def]
          simp only []
          rw [if_neg h2, if_neg h1, if_neg (by omega), ih hpt rest]
          rfl

/-! ### Small parser facts -/

theorem sizeVal_pos (v : JsonVal) : 1 ≤ sizeVal v := by
  cases v <;> simp only [sizeVal] <;> omega

theorem parseVal_ws {c : Char} (hc : isJsonWs c = true) (f : Nat) (T : List Char) :
    parseVal f (c :: T) = parseVal f T := by
  cases f with
  | zero => simp only [parseVal]
  | succ f =>
      simp only [parseVal]
      rw [skipWs_cons_of_ws hc]

theorem parseElems_ws {c : Char} (hc : isJsonWs c = true) (g : Nat) (T : List Char) :
    parseElems g (c :: T) = parseElems g T := by
  cases g with
  | zero => simp only [parseElems]
  | succ g => simp only [parseElems, parseVal_ws hc]

theorem encodeObj_head_quote (m : List Char × JsonVal)
    (tl : List (List Char × JsonVal)) :
    ∃ t, encodeObj (m :: tl) = '"' :: t := by
  obtain ⟨k, v⟩ := m
  cases tl with
  | nil => exact ⟨_, rfl⟩
  | cons m2 tl2 => exact ⟨_, rfl⟩

/-! ### Parsing back rendered element and member lists -/

theorem parseElems_encodeArr
    (ys : List JsonVal)
    (hy : ∀ y ∈ ys, wfVal y = true → ∀ (f : Nat) (rest : List Char),
      sizeVal y ≤ f → digitBoundary rest = true →
      parseVal f (encodeVal y ++ rest) = some (y, rest)) :
    wfArr ys = true → ys ≠ [] →
    ∀ (g : Nat) (rest : List Char), sizeArr ys ≤ g →
      parseElems g (encodeArr ys ++ ']' :: rest) = some (ys, rest) := by
  induction ys with
  | nil =>
      intro _ hne
      exact absurd rfl hne
  | cons v t ih =>
      intro hw _ g rest hg
      have hwv : wfVal v = true ∧ wfArr t = true := by
        simpa [wfArr] using hw
      obtain ⟨g', rfl⟩ : ∃ g', g = g' + 1 :=
        ⟨g - 1, by have := sizeVal_pos v; simp [sizeArr] at hg; omega⟩
      have hg' : sizeVal v + sizeArr t ≤ g' := by
        simp [sizeArr] at hg
        omega
      cases t with
      | nil =>
          rw [show encodeArr [v] ++ ']' :: rest = encodeVal v ++ ']' :: rest from by
            simp [encodeArr]]
          simp only [parseElems]
          rw [hy v (by simp) hwv.1 g' (']' :: rest) (by omega) (by rfl)]
          simp [skipWs_cons_of_not (show isJsonWs ']' = false from by decide)]
      | cons w tl =>
          rw [show encodeArr (v :: w :: tl) ++ ']' :: rest
              = encodeVal v ++ ',' :: ' ' :: (encodeArr (w :: tl) ++ ']' :: rest)
            from by simp [encodeArr]]
          simp only [parseElems]
          rw [hy v (by simp) hwv.1 g'
            (',' :: ' ' :: (encodeArr (w :: tl) ++ ']' :: rest)) (by omega) (by rfl)]
          have hih := ih (fun y hyy => hy y (by simp [hyy])) hwv.2 (by simp) g' rest
            (by omega)
          simp [skipWs_cons_of_not (show isJsonWs ',' = false from by decide),
            parseElems_ws (show isJsonWs ' ' = true from by decide), hih]

theorem parseMems_encodeObj
    (ms : List (List Char × JsonVal))
    (hm : ∀ kv ∈ ms, wfVal kv.2 = true → ∀ (f : Nat) (rest : List Char),
      sizeVal kv.2 ≤ f → digitBoundary rest = true →
      parseVal f (encodeVal kv.2 ++ rest) = some (kv.2, rest)) :
    wfObj ms = true → ms ≠ [] →
    ∀ (g : Nat) (rest : List Char), sizeObj ms ≤ g →
      parseMems g (encodeObj ms ++ '}' :: rest) = some (ms, rest) := by
  induction ms with
  | nil =>
      intro _ hne
      exact absurd rfl hne
  | cons m t ih =>
      obtain ⟨k, v⟩ := m
      intro hw _ g rest hg
      have hwv : printableStr k = true ∧ wfVal v = true ∧ wfObj t = true := by
        simpa [wfObj, and_assoc] using hw
      obtain ⟨g', rfl⟩ : ∃ g', g = g' + 1 :=
        ⟨g - 1, by have := sizeVal_pos v; simp [sizeObj] at hg; omega⟩
      have hg' : sizeVal v + sizeObj t ≤ g' := by
        simp [sizeObj] at hg
        omega
      cases t with
      | nil =>
          rw [show encodeObj [(k, v)] ++ '}' :: rest
              = '"' :: (escStr k ++ '"' :: (':' :: ' '
                  :: (encodeVal v ++ '}' :: rest))) from by
            simp [encodeObj]]
          simp only [parseMems]
          have hv := hm (k, v) (by simp) hwv.2.1 g' ('}' :: rest)
            (by show sizeVal v ≤ g'; omega) (by rfl)
          simp [parseStrBody_escStr k hwv.1,
            skipWs_cons_of_not (show isJsonWs ':' = false from by decide),
            skipWs_cons_of_not (show isJsonWs '}' = false from by decide),
            parseVal_ws (show isJsonWs ' ' = true from by decide), hv]
      | cons m2 tl =>
          obtain ⟨t2, ht2⟩ := encodeObj_head_quote m2 tl
          rw [show encodeObj ((k, v) :: m2 :: tl) ++ '}' :: rest
              = '"' :: (escStr k ++ '"' :: (':' :: ' '
                  :: (encodeVal v ++ ',' :: ' '
                    :: (encodeObj (m2 :: tl) ++ '}' :: rest)))) from by
            simp [encodeObj]]
          simp only [parseMems]
          have hv := hm (k, v) (by simp) hwv.2.1 g'
            (',' :: ' ' :: (encodeObj (m2 :: tl) ++ '}' :: rest))
            (by show sizeVal v ≤ g'; omega) (by rfl)
          have hih := ih (fun y hyy => hm y (by simp [hyy])) hwv.2.2 (by simp) g' rest
            (by omega)
          have hsk : skipWs (' ' :: (encodeObj (m2 :: tl) ++ '}' :: rest))
              = encodeObj (m2 :: tl) ++ '}' :: rest := by
            rw [skipWs_cons_of_ws (by decide), ht2, List.cons_append,
              skipWs_cons_of_not (by decide)]
          simp [parseStrBody_escStr k hwv.1,
            skipWs_cons_of_not (show isJsonWs ':' = false from by decide),
            skipWs_cons_of_not (show isJsonWs ',' = false from by decide),
            parseVal_ws (show isJsonWs ' ' = true from by decide),
            hv, hsk, hih]

/-! ### The full round trip: parsing a rendered value recovers it -/

theorem headBlock_ne_head2 {p c : Char} (ps t : List Char) (h : p ≠ c) :
    ¬ (headBlock (p :: ps) (c :: t) = true) := by
  simp [headBlock, h]

theorem parseValCore_quote (f : Nat) (X : List Char) :
    parseValCore (f + 1) ('"' :: X)
      = (parseStrBody X).map (fun p => (.str p.1, p.2)) := by
  rw [parseValCore.eq_def]
  simp [headBlock]

theorem parseValCore_bracket (f : Nat) (X : List Char) :
    parseValCore (f + 1) ('[' :: X)
      = (match skipWs X with
         | ']' :: r2 => some (.arr [], r2)
         | r2 => (parseElems f r2).map (fun p => (.arr p.1, p.2))) := by
  rw [parseValCore.eq_def]
  simp [headBlock]

theorem parseValCore_brace (f : Nat) (X : List Char) :
    parseValCore (f + 1) ('{' :: X)
      = (match skipWs X with
         | '}' :: r2 => some (.obj [], r2)
         | r2 => (parseMems f r2).map (fun p => (.obj p.1, p.2))) := by
  rw [parseValCore.eq_def]
  simp [headBlock]

theorem parseValCore_nullLit (f : Nat) (rest : List Char) :
    parseValCore (f + 1) (['n', 'u', 'l', 'l'] ++ rest) = some (.null, rest) := by
  rw [parseValCore.eq_def]
  simp [headBlock]

theorem parseValCore_trueLit (f : Nat) (rest : List Char) :
    parseValCore (f + 1) (['t', 'r', 'u', 'e'] ++ rest) = some (.bool true, rest) := by
  rw [parseValCore.eq_def]
  simp [headBlock]

theorem parseValCore_falseLit (f : Nat) (rest : List Char) :
    parseValCore (f + 1) (['f', 'a', 'l', 's', 'e'] ++ rest)
      = some (.bool false, rest) := by
  rw [parseValCore.eq_def]
  simp [headBlock]

theorem parseValCore_minus (f : Nat) (r : List Char) :
    parseValCore (f + 1) ('-' :: r)
      = (parsePosNum r).map (fun p => (.num (-(p.1 : Int)), p.2)) := by
  rw [parseValCore.eq_def]
  simp [headBlock]

theorem parseValCore_digit {c : Char} (hc : isDigitCh c = true) (f : Nat)
    (r : List Char) :
    parseValCore (f + 1) (c :: r)
      = (parsePosNum (c :: r)).map (fun p => (.num (p.1 : Int), p.2)) := by
  obtain ⟨p1, p2, p3, p4, p5, p6, p7, p8, p9, p10, p11⟩ := digit_props hc
  rw [parseValCore.eq_def]
  simp [headBlock, Ne.symm p5, Ne.symm p6, Ne.symm p7, p8, p9, p10, p11, hc]

theorem parseVal_encodeVal :
    ∀ (v : JsonVal), wfVal v = true →
      ∀ (f : Nat) (rest : List Char), sizeVal v ≤ f → digitBoundary rest = true →
        parseVal f (encodeVal v ++ rest) = some (v, rest) := by
  intro v
  induction v using JsonVal.inductionOn with
  | hnull =>
      intro _ f rest hf _
      obtain ⟨f', rfl⟩ : ∃ f', f = f' + 2 :=
        ⟨f - 2, by simp [sizeVal] at hf; omega⟩
      simp only [parseVal]
      rw [skipWs_encodeVal_append]
      rw [show encodeVal .null = ['n', 'u', 'l', 'l'] from rfl]
      exact parseValCore_nullLit f' rest
  | hbool b =>
      intro _ f rest hf _
      obtain ⟨f', rfl⟩ : ∃ f', f = f' + 2 :=
        ⟨f - 2, by simp [sizeVal] at hf; omega⟩
      simp only [parseVal]
      rw [skipWs_encodeVal_append]
      cases b
      · rw [show encodeVal (.bool false) = ['f', 'a', 'l', 's', 'e'] from rfl]
        exact parseValCore_falseLit f' rest
      · rw [show encodeVal (.bool true) = ['t', 'r', 'u', 'e'] from rfl]
        exact parseValCore_trueLit f' rest
  | hnum n =>
      intro _ f rest hf hrest
      obtain ⟨f', rfl⟩ : ∃ f', f = f' + 2 :=
        ⟨f - 2, by simp [sizeVal] at hf; omega⟩
      simp only [parseVal]
      rw [skipWs_encodeVal_append]
      rw [show encodeVal (.num n) = intChars n from rfl]
      by_cases hneg : n < 0
      · rw [show intChars n = '-' :: natDigs n.natAbs from by
          rw [intChars, if_pos hneg]]
        rw [List.cons_append, parseValCore_minus]
        have hpp := parsePosNum_natDigs n.natAbs hrest
        simp [hpp]
        rw [abs_of_neg hneg]
        exact neg_neg n
      · rw [show intChars n = natDigs n.natAbs from by
          rw [intChars, if_neg hneg]]
        cases hd : natDigs n.natAbs with
        | nil => exact absurd hd (natDigs_ne_nil _)
        | cons d ds =>
            have hdig : isDigitCh d = true :=
              natDigs_all_digit n.natAbs d (by rw [hd]; simp)
            have hpp := parsePosNum_natDigs n.natAbs hrest
            rw [hd, List.cons_append] at hpp
            rw [List.cons_append, parseValCore_digit hdig]
            simp [hpp]
            omega
  | hstr s =>
      intro hw f rest hf _
      obtain ⟨f', rfl⟩ : ∃ f', f = f' + 2 :=
        ⟨f - 2, by simp [sizeVal] at hf; omega⟩
      simp only [parseVal]
      rw [skipWs_encodeVal_append]
      rw [show encodeVal (.str s) ++ rest
          = '"' :: (escStr s ++ '"' :: rest) from by
        rw [show encodeVal (.str s) = '"' :: (escStr s ++ ['"']) from rfl]
        simp]
      rw [parseValCore_quote]
      rw [parseStrBody_escStr s (by simpa [wfVal] using hw) rest]
      rfl
  | harr xs ihx =>
      intro hw f rest hf _
      obtain ⟨f', rfl⟩ : ∃ f', f = f' + 2 :=
        ⟨f - 2, by simp [sizeVal] at hf; omega⟩
      simp only [parseVal]
      rw [skipWs_encodeVal_append]
      rw [show encodeVal (.arr xs) ++ rest
          = '[' :: (encodeArr xs ++ ']' :: rest) from by
        rw [show encodeVal (.arr xs) = '[' :: (encodeArr xs ++ [']']) from rfl]
        simp]
      rw [parseValCore_bracket]
      cases xs with
      | nil =>
          rw [show encodeArr [] ++ ']' :: rest = ']' :: rest from by simp [encodeArr]]
          rw [skipWs_cons_of_not (by decide)]
          simp
      | cons v tl =>
          obtain ⟨c, t, hct, hws, -, hne1, -⟩ := encodeVal_head_spec v
          have hshape : encodeArr (v :: tl) ++ ']' :: rest
              = c :: (t ++ ((encodeArr (v :: tl) ++ ']' :: rest).drop (t.length + 1))) := by
            cases tl with
            | nil =>
                rw [show encodeArr [v] = encodeVal v from rfl, hct]
                simp
            | cons w tl2 =>
                rw [show encodeArr (v :: w :: tl2)
                    = encodeVal v ++ ',' :: ' ' :: encodeArr (w :: tl2) from rfl,
                  hct]
                simp
          have hsk : skipWs (encodeArr (v :: tl) ++ ']' :: rest)
              = encodeArr (v :: tl) ++ ']' :: rest := by
            rw [hshape, skipWs_cons_of_not hws, ← hshape]
          have harr := parseElems_encodeArr (v :: tl) ihx
            (by simpa [wfVal] using hw) (by simp) f' rest
            (by simp [sizeVal] at hf; omega)
          rw [hsk, hshape]
          split
          · rename_i r2 heq
            exfalso
            have hcc : c = ']' := by
              have := congrArg List.head? heq
              simpa using this
            exact hne1 hcc
          · rw [← hshape, harr]
            rfl
  | hobj kvs ihk =>
      intro hw f rest hf _
      obtain ⟨f', rfl⟩ : ∃ f', f = f' + 2 :=
        ⟨f - 2, by simp [sizeVal] at hf; omega⟩
      simp only [parseVal]
      rw [skipWs_encodeVal_append]
      rw [show encodeVal (.obj kvs) ++ rest
          = '{' :: (encodeObj kvs ++ '}' :: rest) from by
        rw [show encodeVal (.obj kvs) = '{' :: (encodeObj kvs ++ ['}']) from rfl]
        simp]
      rw [parseValCore_brace]
      cases kvs with
      | nil =>
          rw [show encodeObj [] ++ '}' :: rest = '}' :: rest from by simp [encodeObj]]
          rw [skipWs_cons_of_not (by decide)]
          simp
      | cons m tl =>
          obtain ⟨t2, ht2⟩ := encodeObj_head_quote m tl
          have hshape : encodeObj (m :: tl) ++ '}' :: rest
              = '"' :: (t2 ++ '}' :: rest) := by
            rw [ht2]
            simp
          have hobj := parseMems_encodeObj (m :: tl) ihk
            (by simpa [wfVal] using hw) (by simp) f' rest
            (by simp [sizeVal] at hf; omega)
          rw [hshape, skipWs_cons_of_not (by decide), ← hshape]
          rw [hshape]
          split
          · rename_i r2 heq
            exfalso
            have := congrArg List.head? heq
            simp at this
          · rw [← hshape, hobj]
            rfl

/-! ### The fuel supplied by `jsonLoads` is always sufficient -/

theorem sizeArr_le (ys : List JsonVal)
    (hy : ∀ y ∈ ys, sizeVal y ≤ 2 * (encodeVal y).length) :
    sizeArr ys ≤ 2 * (encodeArr ys).length + 2 := by
  induction ys with
  | nil => simp [sizeArr, encodeArr]
  | cons v t ih =>
      cases t with
      | nil =>
          have := hy v (by simp)
          rw [show encodeArr [v] = encodeVal v from rfl]
          simp [sizeArr]
          omega
      | cons w tl =>
          have h1 := hy v (by simp)
          have h2 := ih (fun y hyy => hy y (by simp [hyy]))
          rw [show encodeArr (v :: w :: tl)
              = encodeVal v ++ ',' :: ' ' :: encodeArr (w :: tl) from rfl]
          simp [sizeArr] at h2 ⊢
          omega

theorem sizeObj_le (ms : List (List Char × JsonVal))
    (hm : ∀ kv ∈ ms, sizeVal kv.2 ≤ 2 * (encodeVal kv.2).length) :
    sizeObj ms ≤ 2 * (encodeObj ms).length + 2 := by
  induction ms with
  | nil => simp [sizeObj, encodeObj]
  | cons m t ih =>
      obtain ⟨k, v⟩ := m
      cases t with
      | nil =>
          have := hm (k, v) (by simp)
          rw [show encodeObj [(k, v)]
              = '"' :: (escStr k ++ '"' :: ':' :: ' ' :: encodeVal v) from rfl]
          simp [sizeObj] at this ⊢
          omega
      | cons m2 tl =>
          have h1 := hm (k, v) (by simp)
          have h2 := ih (fun y hyy => hm y (by simp [hyy]))
          rw [show encodeObj ((k, v) :: m2 :: tl)
              = '"' :: (escStr k ++ '"' :: ':' :: ' ' :: encodeVal v)
                ++ ',' :: ' ' :: encodeObj (m2 :: tl) from rfl]
          simp [sizeObj] at h1 h2 ⊢
          omega

theorem sizeVal_le_length : ∀ (v : JsonVal), sizeVal v ≤ 2 * (encodeVal v).length := by
  intro v
  induction v using JsonVal.inductionOn with
  | hnull => simp [sizeVal, encodeVal]
  | hbool b => cases b <;> simp [sizeVal, encodeVal]
  | hnum n =>
      have := natDigs_ne_nil n.natAbs
      rw [show encodeVal (.num n) = intChars n from rfl, intChars, sizeVal]
      by_cases h : n < 0
      · simp [h]
      · rw [if_neg h]
        cases hd : natDigs n.natAbs with
        | nil => exact absurd hd this
        | cons d ds => simp
  | hstr s =>
      rw [show encodeVal (.str s) = '"' :: (escStr s ++ ['"']) from rfl]
      simp [sizeVal]
  | harr xs ihx =>
      have := sizeArr_le xs ihx
      rw [show encodeVal (.arr xs) = '[' :: (encodeArr xs ++ [']']) from rfl]
      simp [sizeVal]
      omega
  | hobj kvs ihk =>
      have := sizeObj_le kvs ihk
      rw [show encodeVal (.obj kvs) = '{' :: (encodeObj kvs ++ ['}']) from rfl]
      simp [sizeVal]
      omega

theorem jsonLoads_encodeVal (v : JsonVal) (hw : wfVal v = true) :
    jsonLoads (encodeVal v) = some v := by
  have h := parseVal_encodeVal v hw (2 * (encodeVal v).length + 2) []
    (le_trans (sizeVal_le_length v) (by omega)) rfl
  rw [List.append_nil] at h
  rw [jsonLoads, h]
  simp [skipWs]

/-! ### Processing an encoded value as a candidate slice yields it -/

theorem processSlice_encodeVal (v : JsonVal) (hw : wfVal v = true) :
    processSlice (encodeVal v) = .yield v := by
  obtain ⟨c, t, hct, -, hst, -, -⟩ := encodeVal_head_spec v
  have hne : stripChars (encodeVal v) ≠ [] :=
    stripChars_ne_nil_head (by rw [hct]; rfl) hst
  rw [processSlice]
  rw [if_neg (by simpa using hne)]
  rw [jsonLoads_encodeVal v hw]

theorem processSlices_encodes :
    ∀ (vs : List JsonVal), (∀ v ∈ vs, wfVal v = true) →
      processSlices (vs.map encodeVal) = (vs, none) := by
  intro vs
  induction vs with
  | nil => intro _; rfl
  | cons v t ih =>
      intro hw
      rw [List.map_cons, processSlices]
      rw [processSlice_encodeVal v (hw v (by simp))]
      rw [ih (fun y hy => hw y (by simp [hy]))]

/-! ### Extraction on whole lines built from encoded objects -/

theorem scanObjs_parts (parts : List (List Char × JsonVal))
    (hp : ∀ pr ∈ parts, neutralStr pr.1 = true ∧ isObjVal pr.2 = true)
    (trail : List Char) (htrail : neutralStr trail = true) :
    scanObjs (partsText parts ++ trail) = rangesFrom 0 parts := by
  obtain ⟨p', hp'⟩ := scanAux_partsText parts hp 0 [] 0
  rw [scanObjs, scanAux_append]
  rw [show initScan = (⟨0, false, false, 0, []⟩ : ScanSt) from rfl]
  rw [hp']
  rw [scanAux_neutralStr trail htrail rfl rfl]
  simp

theorem scanObjs_parts_rest (parts : List (List Char × JsonVal))
    (hp : ∀ pr ∈ parts, neutralStr pr.1 = true ∧ isObjVal pr.2 = true)
    (rest : List Char) (hrest : scanObjs rest = []) :
    scanObjs (partsText parts ++ rest) = rangesFrom 0 parts := by
  obtain ⟨p', hp'⟩ := scanAux_partsText parts hp 0 [] 0
  rw [scanObjs, scanAux_append]
  rw [show initScan = (⟨0, false, false, 0, []⟩ : ScanSt) from rfl]
  rw [hp']
  have := scanAux_sim rest
    ⟨0, false, false, p', [] ++ rangesFrom 0 parts⟩ initScan
    (0 + (partsText parts).length) 0 rfl rfl rfl hrest
  rw [this]
  simp

theorem rangesFrom_ne_nil (i : Nat) (pr : List Char × JsonVal)
    (tl : List (List Char × JsonVal)) : rangesFrom i (pr :: tl) ≠ [] := by
  obtain ⟨s, v⟩ := pr
  simp [rangesFrom]

theorem partsText_ne_nil (pr : List Char × JsonVal)
    (tl : List (List Char × JsonVal)) : partsText (pr :: tl) ≠ [] := by
  obtain ⟨s, v⟩ := pr
  obtain ⟨c, t, hct, -, -, -, -⟩ := encodeVal_head_spec v
  rw [partsText, hct]
  intro h
  have := congrArg List.length h
  simp at this

theorem processLine_parts (parts : List (List Char × JsonVal))
    (hp : ∀ pr ∈ parts, neutralStr pr.1 = true ∧ isObjVal pr.2 = true
      ∧ wfVal pr.2 = true)
    (hne : parts ≠ [])
    (tail : List Char)
    (hobjs : scanObjs (partsText parts ++ tail) = rangesFrom 0 parts)
    (hstrip : stripChars (partsText parts ++ tail) = partsText parts ++ tail) :
    processLine (partsText parts ++ tail)
      = (parts.map (fun pr => pr.2), none) := by
  obtain ⟨pr0, tl0, rfl⟩ : ∃ pr0 tl0, parts = pr0 :: tl0 := by
    cases parts with
    | nil => exact absurd rfl hne
    | cons a b => exact ⟨a, b, rfl⟩
  have hlne : partsText (pr0 :: tl0) ++ tail ≠ [] := by
    intro h
    exact partsText_ne_nil pr0 tl0 (by simpa using (List.append_eq_nil.mp h).1)
  unfold processLine
  rw [hstrip]
  rw [if_neg (by simpa using hlne)]
  unfold candidateSlices
  rw [hobjs]
  have hslices := rangesFrom_slices (pr0 :: tl0) [] tail
    (partsText (pr0 :: tl0) ++ tail) (by simp)
  simp only [List.length_nil] at hslices
  rw [hslices]
  rw [if_neg (by simp)]
  have hmm2 : (pr0 :: tl0).map (fun pr => encodeVal pr.2)
      = ((pr0 :: tl0).map (fun pr => pr.2)).map encodeVal := by
    simp
  rw [hmm2]
  exact processSlices_encodes _ (by
    intro y hy
    rw [List.mem_map] at hy
    obtain ⟨pr, hpr, rfl⟩ := hy
    exact (hp pr hpr).2.2)

/-! ### A rendered array is the bracket part followed by its elements -/

theorem encodeArr_as_parts :
    ∀ (tl : List JsonVal) (v : JsonVal),
      encodeArr (v :: tl)
        = encodeVal v ++ partsText (tl.map (fun w => ([',', ' '], w))) := by
  intro tl
  induction tl with
  | nil => intro v; simp [encodeArr, partsText]
  | cons w tl2 ih =>
      intro v
      rw [show encodeArr (v :: w :: tl2)
          = encodeVal v ++ ',' :: ' ' :: encodeArr (w :: tl2) from rfl]
      rw [List.map_cons, partsText, ih w]
      simp

theorem encodeVal_arr_parts (v : JsonVal) (tl : List JsonVal) :
    partsText (arrParts (v :: tl)) ++ [']'] = encodeVal (.arr (v :: tl)) := by
  rw [show encodeVal (.arr (v :: tl)) = '[' :: (encodeArr (v :: tl) ++ [']']) from rfl]
  rw [arrParts, partsText, encodeArr_as_parts tl v]
  simp

/-! ### Lines that are joins of encoded objects -/

theorem join_as_parts :
    ∀ (vs : List JsonVal),
      partsText (vs.map (fun v => (([] : List Char), v))) = (vs.map encodeVal).join := by
  intro vs
  induction vs with
  | nil => rfl
  | cons v tl ih => simp [partsText, ih]

theorem encodeVal_obj_last (kvs : List (List Char × JsonVal)) :
    (encodeVal (.obj kvs)).getLast? = some '}' := by
  rw [show encodeVal (.obj kvs) = '{' :: (encodeObj kvs ++ ['}']) from rfl]
  rw [show ('{' :: (encodeObj kvs ++ ['}']) : List Char)
      = ('{' :: encodeObj kvs) ++ ['}'] from by simp]
  rw [List.getLast?_concat]

theorem join_encodes_head (v : JsonVal) (tl : List JsonVal) :
    (((v :: tl).map encodeVal).join).head? = (encodeVal v).head? := by
  obtain ⟨c, t, hct, -, -, -, -⟩ := encodeVal_head_spec v
  rw [List.map_cons]
  rw [show (((encodeVal v :: List.map encodeVal tl).join : List Char))
      = encodeVal v ++ (List.map encodeVal tl).join from rfl]
  rw [hct]
  rfl

theorem join_encodes_last :
    ∀ (vs : List JsonVal), vs ≠ [] → (∀ v ∈ vs, isObjVal v = true) →
      (((vs.map encodeVal).join).getLast? : Option Char) = some '}' := by
  intro vs
  induction vs with
  | nil => intro h; exact absurd rfl h
  | cons v tl ih =>
      intro _ hv
      rw [List.map_cons]
      rw [show (((encodeVal v :: List.map encodeVal tl).join : List Char))
          = encodeVal v ++ (List.map encodeVal tl).join from rfl]
      cases tl with
      | nil =>
          have hov := hv v (by simp)
          obtain ⟨kvs, rfl⟩ : ∃ kvs, v = .obj kvs := by
            cases v <;> simp [isObjVal] at hov
            exact ⟨_, rfl⟩
          rw [show ((List.map encodeVal ([] : List JsonVal)).join : List Char)
              = [] from rfl]
          rw [List.append_nil]
          exact encodeVal_obj_last kvs
      | cons w tl2 =>
          have hne2 : ((w :: tl2).map encodeVal).join ≠ [] := by
            rw [List.map_cons]
            rw [show (((encodeVal w :: List.map encodeVal tl2).join : List Char))
                = encodeVal w ++ (List.map encodeVal tl2).join from rfl]
            obtain ⟨c, t, hct, -, -, -, -⟩ := encodeVal_head_spec w
            rw [hct]
            simp
          rw [List.getLast?_append_of_ne_nil _ hne2]
          exact ih (by simp) (fun y hy => hv y (by simp [hy]))

theorem stripChars_join_objs (vs : List JsonVal) (hne : vs ≠ [])
    (hv : ∀ v ∈ vs, isObjVal v = true) :
    stripChars ((vs.map encodeVal).join) = (vs.map encodeVal).join := by
  obtain ⟨v, tl, rfl⟩ : ∃ v tl, vs = v :: tl := by
    cases vs with
    | nil => exact absurd rfl hne
    | cons a b => exact ⟨a, b, rfl⟩
  apply stripChars_eq_self
  · intro c hc
    rw [join_encodes_head] at hc
    obtain ⟨c2, t, hct, -, hst, -, -⟩ := encodeVal_head_spec v
    rw [hct] at hc
    cases hc
    exact hst
  · intro c hc
    rw [join_encodes_last (v :: tl) (by simp) hv] at hc
    cases hc
    decide

theorem sliceOf_full (l : List Char) : sliceOf l (0, l.length) = l := by
  simp [sliceOf]

theorem arrParts_map_snd (v : JsonVal) (tl : List JsonVal) :
    (arrParts (v :: tl)).map (fun pr => pr.2) = v :: tl := by
  rw [arrParts]
  simp

/-! ### Shared top-level extraction results -/

theorem processLine_join_objs (vs : List JsonVal) (hne : vs ≠ [])
    (hv : ∀ v ∈ vs, isObjVal v = true ∧ wfVal v = true) :
    processLine ((vs.map encodeVal).join) = (vs, none) := by
  have hjp := join_as_parts vs
  have hp : ∀ pr ∈ vs.map (fun v => (([] : List Char), v)),
      neutralStr pr.1 = true ∧ isObjVal pr.2 = true ∧ wfVal pr.2 = true := by
    intro pr hpr
    rw [List.mem_map] at hpr
    obtain ⟨v, hvv, rfl⟩ := hpr
    exact ⟨rfl, (hv v hvv).1, (hv v hvv).2⟩
  have hne2 : vs.map (fun v => (([] : List Char), v)) ≠ [] := by
    intro h
    exact hne (by simpa using h)
  have hobjs := scanObjs_parts (vs.map (fun v => (([] : List Char), v)))
    (fun pr hpr => ⟨(hp pr hpr).1, (hp pr hpr).2.1⟩) [] rfl
  rw [List.append_nil] at hobjs
  have hstrip := stripChars_join_objs vs hne (fun v hvv => (hv v hvv).1)
  have hmain := processLine_parts (vs.map (fun v => (([] : List Char), v)))
    hp hne2 []
    (by rw [List.append_nil]; exact hobjs)
    (by rw [List.append_nil, hjp]; exact hstrip)
  rw [List.append_nil, hjp] at hmain
  rw [hmain]
  simp

theorem processLine_encoded_array (vs : List JsonVal) (hne : vs ≠ [])
    (hv : ∀ v ∈ vs, isObjVal v = true ∧ wfVal v = true) :
    processLine (encodeVal (.arr vs)) = (vs, none) := by
  obtain ⟨v, tl, rfl⟩ : ∃ v tl, vs = v :: tl := by
    cases vs with
    | nil => exact absurd rfl hne
    | cons a b => exact ⟨a, b, rfl⟩
  have hp : ∀ pr ∈ arrParts (v :: tl),
      neutralStr pr.1 = true ∧ isObjVal pr.2 = true ∧ wfVal pr.2 = true := by
    intro pr hpr
    rw [arrParts] at hpr
    rcases List.mem_cons.mp hpr with rfl | hmem
    · exact ⟨show neutralStr ['['] = true by decide,
        (hv v (by simp)).1, (hv v (by simp)).2⟩
    · rw [List.mem_map] at hmem
      obtain ⟨w, hw2, rfl⟩ := hmem
      exact ⟨show neutralStr [',', ' '] = true by decide,
        (hv w (by simp [hw2])).1, (hv w (by simp [hw2])).2⟩
  have harr := encodeVal_arr_parts v tl
  have hobjs := scanObjs_parts (arrParts (v :: tl))
    (fun pr hpr => ⟨(hp pr hpr).1, (hp pr hpr).2.1⟩) [']'] (by decide)
  have hstrip : stripChars (partsText (arrParts (v :: tl)) ++ [']'])
      = partsText (arrParts (v :: tl)) ++ [']'] := by
    rw [harr]
    apply stripChars_eq_self
    · intro c hc
      obtain ⟨c2, t, hct, -, hst, -, -⟩ := encodeVal_head_spec (.arr (v :: tl))
      rw [hct] at hc
      cases hc
      exact hst
    · intro c hc
      rw [show encodeVal (.arr (v :: tl))
          = '[' :: (encodeArr (v :: tl) ++ [']']) from rfl] at hc
      rw [show ('[' :: (encodeArr (v :: tl) ++ [']']) : List Char)
          = ('[' :: encodeArr (v :: tl)) ++ [']'] from by simp] at hc
      rw [List.getLast?_concat] at hc
      cases hc
      decide
  have hmain := processLine_parts (arrParts (v :: tl)) hp
    (by rw [arrParts]; simp) [']'] hobjs hstrip
  rw [harr] at hmain
  rw [arrParts_map_snd] at hmain
  exact hmain

/-! ## The claims -/

/-- C1: for every stdout line that is the concatenation of one or more
well-formed JSON object texts with no separator, `receive_messages` yields
exactly that many decoded messages, in left-to-right order of the objects'
closing braces, each equal to the result of parsing its source text
directly, and raises nothing. -/
theorem claim1_concatenated_objects (vs : List JsonVal) (hne : vs ≠ [])
    (hv : ∀ v ∈ vs, isObjVal v = true ∧ wfVal v = true) :
    processLine ((vs.map encodeVal).join) = (vs, none)
    ∧ (vs.map encodeVal).map jsonLoads = vs.map some := by
  refine ⟨processLine_join_objs vs hne hv, ?_⟩
  rw [List.map_map]
  apply List.map_congr_left
  intro v hvv
  exact jsonLoads_encodeVal v (hv v hvv).2

/-- C1 witness: two concatenated object texts yield exactly their two
messages, each the direct parse of its own text. -/
theorem claim1_witness :
    processLine (([JsonVal.obj [(['a'], JsonVal.num 1)], JsonVal.obj []].map
        encodeVal).join)
      = ([JsonVal.obj [(['a'], JsonVal.num 1)], JsonVal.obj []], none)
    ∧ ([JsonVal.obj [(['a'], JsonVal.num 1)], JsonVal.obj []].map
        encodeVal).map jsonLoads
      = [JsonVal.obj [(['a'], JsonVal.num 1)], JsonVal.obj []].map some :=
  claim1_concatenated_objects
    [JsonVal.obj [(['a'], JsonVal.num 1)], JsonVal.obj []]
    (by simp) (by decide)

/-- C2: the brace-depth scan never opens or closes an object boundary
inside a string literal: extracting the encoded text of any well-formed
object value, whose strings may contain braces, backslash escapes and
escaped quotes, returns exactly the whole text, and decoding it recovers
the original value. -/
theorem claim2_string_literal_roundtrip (x : JsonVal) (hobj : isObjVal x = true)
    (hw : wfVal x = true) :
    candidateSlices (encodeVal x) = [encodeVal x]
    ∧ (candidateSlices (encodeVal x)).map jsonLoads = [some x] := by
  obtain ⟨kvs, rfl⟩ : ∃ kvs, x = .obj kvs := by
    cases x <;> simp [isObjVal] at hobj
    exact ⟨_, rfl⟩
  have htop := scanAux_encodeVal_top kvs 0 [] 0
  have hscan : scanObjs (encodeVal (.obj kvs))
      = [(0, (encodeVal (.obj kvs)).length)] := by
    rw [scanObjs]
    rw [show initScan = (⟨0, false, false, 0, []⟩ : ScanSt) from rfl]
    rw [htop]
    simp
  have hcand : candidateSlices (encodeVal (.obj kvs)) = [encodeVal (.obj kvs)] := by
    rw [candidateSlices, hscan]
    simp [sliceOf_full]
  refine ⟨hcand, ?_⟩
  rw [hcand, List.map_singleton, jsonLoads_encodeVal _ hw]

/-- C2 witness: a value whose string holds literal braces, an escaped
quote and a backslash round-trips through extraction and decoding. -/
theorem claim2_witness :
    candidateSlices (encodeVal (JsonVal.obj
        [(['k'], JsonVal.str ['a', '{', 'b', '}', 'c', '"', 'd', '\\', 'e'])]))
      = [encodeVal (JsonVal.obj
          [(['k'], JsonVal.str ['a', '{', 'b', '}', 'c', '"', 'd', '\\', 'e'])])]
    ∧ (candidateSlices (encodeVal (JsonVal.obj
        [(['k'], JsonVal.str ['a', '{', 'b', '}', 'c', '"', 'd', '\\', 'e'])]))).map
          jsonLoads
      = [some (JsonVal.obj
          [(['k'], JsonVal.str ['a', '{', 'b', '}', 'c', '"', 'd', '\\', 'e'])])] :=
  claim2_string_literal_roundtrip
    (JsonVal.obj [(['k'], JsonVal.str ['a', '{', 'b', '}', 'c', '"', 'd', '\\', 'e'])])
    (by decide) (by decide)

/-- C3 counterexample: the line `[{"a": 1}]` is a single well-formed
top-level JSON value (an array of one object), yet the extractor yields
the inner object, not the array, refuting the claim that each complete
top-level value is yielded as itself. -/
theorem claim3_counterexample :
    jsonLoads ("[\x7b\"a\": 1\x7d]".data)
      = some (JsonVal.arr [JsonVal.obj [(['a'], JsonVal.num 1)]])
    ∧ processLine ("[\x7b\"a\": 1\x7d]".data)
      = ([JsonVal.obj [(['a'], JsonVal.num 1)]], none)
    ∧ ¬ (([JsonVal.obj [(['a'], JsonVal.num 1)]] : List JsonVal)
          = [JsonVal.arr [JsonVal.obj [(['a'], JsonVal.num 1)]]]) := by
  refine ⟨by rfl, by rfl, ?_⟩
  intro h
  have h1 := List.head_eq_of_cons_eq h
  exact JsonVal.noConfusion h1

/-- C3 as amended: the extractor yields the balanced top-level object
texts of a line: a concatenation of object texts yields exactly those
objects, while a top-level array whose elements are objects is split into
its element objects and the array itself is never yielded. -/
theorem claim3_amended (vs : List JsonVal) (hne : vs ≠ [])
    (hv : ∀ v ∈ vs, isObjVal v = true ∧ wfVal v = true) :
    processLine ((vs.map encodeVal).join) = (vs, none)
    ∧ processLine (encodeVal (.arr vs)) = (vs, none) :=
  ⟨processLine_join_objs vs hne hv, processLine_encoded_array vs hne hv⟩

/-- C3 witness: instantiating the amended claim at one object. -/
theorem claim3_witness :
    processLine (([JsonVal.obj [(['a'], JsonVal.num 1)]].map encodeVal).join)
      = ([JsonVal.obj [(['a'], JsonVal.num 1)]], none)
    ∧ processLine (encodeVal (.arr [JsonVal.obj [(['a'], JsonVal.num 1)]]))
      = ([JsonVal.obj [(['a'], JsonVal.num 1)]], none) :=
  claim3_amended [JsonVal.obj [(['a'], JsonVal.num 1)]] (by simp) (by decide)

/-- C9: once the scan has discovered at least one balanced object on a
line, any trailing remainder after the last balanced object — here an
arbitrary tail on which the scan finds no balanced object, such as an
unbalanced fragment starting with an opening brace — yields no message
and raises no decode error: the line produces exactly the balanced
objects' messages. -/
theorem claim9_trailing_remainder (vs : List JsonVal) (rest : List Char)
    (hne : vs ≠ []) (hv : ∀ v ∈ vs, isObjVal v = true ∧ wfVal v = true)
    (hrest : scanObjs rest = [])
    (hstrip : stripChars ((vs.map encodeVal).join ++ rest)
        = (vs.map encodeVal).join ++ rest) :
    processLine ((vs.map encodeVal).join ++ rest) = (vs, none) := by
  have hjp := join_as_parts vs
  have hp : ∀ pr ∈ vs.map (fun v => (([] : List Char), v)),
      neutralStr pr.1 = true ∧ isObjVal pr.2 = true ∧ wfVal pr.2 = true := by
    intro pr hpr
    rw [List.mem_map] at hpr
    obtain ⟨v, hvv, rfl⟩ := hpr
    exact ⟨rfl, (hv v hvv).1, (hv v hvv).2⟩
  have hne2 : vs.map (fun v => (([] : List Char), v)) ≠ [] := by
    intro h
    exact hne (by simpa using h)
  have hobjs := scanObjs_parts_rest (vs.map (fun v => (([] : List Char), v)))
    (fun pr hpr => ⟨(hp pr hpr).1, (hp pr hpr).2.1⟩) rest hrest
  have hmain := processLine_parts (vs.map (fun v => (([] : List Char), v)))
    hp hne2 rest hobjs (by rw [hjp]; exact hstrip)
  rw [hjp] at hmain
  rw [hmain]
  simp

/-- C9 witness: after one complete object, the unbalanced JSON-looking
fragment `{"b":` is silently lost: one message, no decode error. -/
theorem claim9_witness :
    processLine (([JsonVal.obj [(['a'], JsonVal.bool true)]].map encodeVal).join
        ++ ['{', '"', 'b', '"', ':'])
      = ([JsonVal.obj [(['a'], JsonVal.bool true)]], none) :=
  claim9_trailing_remainder [JsonVal.obj [(['a'], JsonVal.bool true)]]
    ['{', '"', 'b', '"', ':'] (by simp) (by decide) (by rfl) (by rfl)

/-! ### Heads of candidate slices -/

theorem candidateSlices_head_not_ws (ln : List Char)
    (hline : ∀ c, ln.head? = some c → isStripWs c = false) :
    ∀ s ∈ candidateSlices ln, ∀ c, s.head? = some c → isStripWs c = false := by
  intro s hs c hc
  simp only [candidateSlices] at hs
  split at hs
  · rw [List.mem_singleton] at hs
    subst hs
    exact hline c hc
  · rw [List.mem_map] at hs
    obtain ⟨r, hr, rfl⟩ := hs
    obtain ⟨h1, h2, h3⟩ := scanObjs_spec ln r hr
    rw [sliceOf_head ln r h1 h2 h3] at hc
    cases hc
    decide

theorem firstNonWs_eq_head {s : List Char}
    (h : ∀ c, s.head? = some c → isStripWs c = false) :
    firstNonWs s = s.head? := by
  cases s with
  | nil => rfl
  | cons c t =>
      unfold firstNonWs
      rw [List.dropWhile_cons, if_neg (by simp [h c rfl])]

theorem headBlock_single (c : Char) (s : List Char) :
    headBlock [c] s = true ↔ s.head? = some c := by
  cases s with
  | nil => simp [headBlock]
  | cons a t =>
      rw [show headBlock [c] (a :: t) = (decide (c = a) && headBlock [] t) from rfl]
      rw [show headBlock ([] : List Char) t = true from rfl]
      simp [eq_comm]

/-- C4: processing of a candidate slice that fails JSON decoding raises a
decode error carrying the slice text if and only if the slice's first
non-space character (which for candidate slices is its first character) is
an opening brace or bracket; any other failing slice is skipped, and a
whitespace-only line yields no message and no error. -/
theorem claim4_decode_error_policy (raw : List Char) :
    (stripChars raw = [] → processLine raw = ([], none))
    ∧ ∀ s ∈ candidateSlices (stripChars raw),
        jsonLoads s = none → (stripChars s).isEmpty = false →
        (processSlice s = .raiseDecode s
            ↔ (firstNonWs s = some '{' ∨ firstNonWs s = some '['))
          ∧ (¬ (firstNonWs s = some '{' ∨ firstNonWs s = some '[') →
              processSlice s = .skip) := by
  constructor
  · intro h
    simp only [processLine]
    rw [h]
    rfl
  · intro s hs hfail hblank
    have hhead : ∀ c, s.head? = some c → isStripWs c = false :=
      candidateSlices_head_not_ws (stripChars raw)
        (fun c hc => stripChars_head_not_ws hc) s hs
    have hfw : firstNonWs s = s.head? := firstNonWs_eq_head hhead
    have hps : processSlice s
        = (if headBlock ['{'] s || headBlock ['['] s then
            SliceStep.raiseDecode s else .skip) := by
      rw [processSlice, if_neg (by simp [hblank]), hfail]
    rw [hfw]
    constructor
    · rw [hps]
      constructor
      · intro hr
        by_cases hb : (headBlock ['{'] s || headBlock ['['] s) = true
        · rcases (by simpa using hb :
              headBlock ['{'] s = true ∨ headBlock ['['] s = true) with h1 | h1
          · exact Or.inl ((headBlock_single '{' s).mp h1)
          · exact Or.inr ((headBlock_single '[' s).mp h1)
        · rw [if_neg hb] at hr
          simp at hr
      · intro hor
        have hb : (headBlock ['{'] s || headBlock ['['] s) = true := by
          rcases hor with h1 | h1
          · simp [(headBlock_single '{' s).mpr h1]
          · simp [(headBlock_single '[' s).mpr h1]
        rw [if_pos hb]
    · intro hnor
      have h1 : headBlock ['{'] s = false := by
        cases hh : headBlock ['{'] s
        · rfl
        · exact absurd (Or.inl ((headBlock_single '{' s).mp hh)) hnor
      have h2 : headBlock ['['] s = false := by
        cases hh : headBlock ['['] s
        · rfl
        · exact absurd (Or.inr ((headBlock_single '[' s).mp hh)) hnor
      rw [hps, if_neg (by simp [h1, h2])]

/-- C4 witness: a whitespace-only line is a no-op, and the unparsable
slice `{bad` (which is its own whole candidate slice) raises exactly
because its first non-space character is an opening brace. -/
theorem claim4_witness :
    processLine [' ', '\t'] = ([], none)
    ∧ ((processSlice ("\x7bbad".data) = .raiseDecode ("\x7bbad".data)
          ↔ (firstNonWs ("\x7bbad".data) = some '{'
              ∨ firstNonWs ("\x7bbad".data) = some '['))
        ∧ (¬ (firstNonWs ("\x7bbad".data) = some '{'
              ∨ firstNonWs ("\x7bbad".data) = some '[') →
            processSlice ("\x7bbad".data) = .skip)) :=
  ⟨(claim4_decode_error_policy [' ', '\t']).1 (by rfl),
   (claim4_decode_error_policy ("\x7bbad".data)).2 ("\x7bbad".data)
     (by rw [show candidateSlices (stripChars ("\x7bbad".data))
           = [("\x7bbad".data)] from rfl]
         exact List.mem_singleton_self _)
     (by rfl) (by rfl)⟩

/-- C5: once the stdout stream is exhausted with no decode error pending,
`receive_messages` ends with a `ProcessError` carrying the exit code and
the joined stderr text if and only if the exit code is nonzero, the joined
stderr is nonempty and its lowercasing contains `"error"`; in particular a
nonzero exit with empty stderr terminates the stream cleanly. -/
theorem claim5_exit_correlation (stdout_lines : List (List Char)) (rc : Int)
    (stderr_lines : List (List Char))
    (hok : (processLines stdout_lines).2 = none) :
    ((receiveMessages stdout_lines (some rc) stderr_lines).2
        = some (.processError rc (joinLines stderr_lines))
      ↔ rc ≠ 0 ∧ joinLines stderr_lines ≠ []
          ∧ containsSub ['e', 'r', 'r', 'o', 'r']
              (lowerChars (joinLines stderr_lines)) = true)
    ∧ (joinLines stderr_lines = [] →
        (receiveMessages stdout_lines (some rc) stderr_lines).2 = none) := by
  have hrm : (receiveMessages stdout_lines (some rc) stderr_lines).2
      = exitCheck (some rc) stderr_lines := by
    simp only [receiveMessages]
    rw [hok]
  rw [hrm]
  simp only [exitCheck]
  by_cases hrc : rc = 0
  · subst hrc
    rw [if_neg (by simp)]
    refine ⟨⟨fun h => by simp at h, fun h => absurd rfl h.1⟩, fun _ => rfl⟩
  · rw [if_pos hrc]
    by_cases hc : (!(joinLines stderr_lines).isEmpty
        && containsSub ['e', 'r', 'r', 'o', 'r']
            (lowerChars (joinLines stderr_lines))) = true
    · obtain ⟨hc1, hc2⟩ : (joinLines stderr_lines).isEmpty = false
          ∧ containsSub ['e', 'r', 'r', 'o', 'r']
              (lowerChars (joinLines stderr_lines)) = true := by
        simpa using hc
      rw [if_pos hc]
      refine ⟨⟨fun _ => ⟨hrc, ?_, hc2⟩, fun _ => rfl⟩, fun hnil => ?_⟩
      · intro hnil
        rw [hnil] at hc1
        simp at hc1
      · rw [hnil] at hc1
        simp at hc1
    · rw [if_neg hc]
      refine ⟨⟨fun h => by simp at h, fun h => ?_⟩, fun _ => rfl⟩
      have he : (joinLines stderr_lines).isEmpty = false := by
        cases he2 : (joinLines stderr_lines).isEmpty
        · rfl
        · exact absurd (List.isEmpty_iff.mp he2) h.2.1
      exact absurd (by simp [he, h.2.2]) hc

/-- C5 witness: exit code 1 with stderr line `error` raises the
`ProcessError`, instantiating the forward direction of the correlation. -/
theorem claim5_witness :
    (processLines ([] : List (List Char))).2 = none
    ∧ (receiveMessages [] (some 1) [['e', 'r', 'r', 'o', 'r']]).2
        = some (.processError 1 (joinLines [['e', 'r', 'r', 'o', 'r']])) :=
  ⟨rfl,
   (claim5_exit_correlation [] 1 [['e', 'r', 'r', 'o', 'r']] rfl).1.mpr
     ⟨by decide, by decide, by decide⟩⟩

/-- C6 counterexample: with `model = "fast"` and `max_turns = 3` the built
argv places `--max-turns 3` before `--model fast` (source order), so the
claimed order `--model` before `--max-turns` does not hold. -/
theorem claim6_counterexample :
    build_command "claude" "hi" { model := some "fast", max_turns := some 3 }
      = ["claude", "--output-format", "stream-json", "--verbose",
         "--max-turns", "3", "--model", "fast", "--print", "hi"]
    ∧ inOrder ["--model", "fast", "--max-turns", "3"]
        (build_command "claude" "hi" { model := some "fast", max_turns := some 3 })
      = false
    ∧ inOrder ["--max-turns", "3", "--model", "fast"]
        (build_command "claude" "hi" { model := some "fast", max_turns := some 3 })
      = true :=
  ⟨by rfl, by rfl, by rfl⟩

/-- C6 as amended: for any cli path, prompt, nonempty model name and
nonzero turn limit with every other option unset, the argv is exactly the
streaming flags, then `--max-turns`, then `--model`, then `--print` and
the prompt as the last two tokens. -/
theorem claim6_amended (cli prompt m : String) (hm : ¬ m = "") (k : Int)
    (hk : ¬ k = 0) :
    build_command cli prompt { model := some m, max_turns := some k }
      = [cli, "--output-format", "stream-json", "--verbose",
         "--max-turns", toString k, "--model", m, "--print", prompt] := by
  simp [build_command, strFlag, intFlag, listFlag, strTruthy, intTruthy, hm, hk]

/-- C6 amended witness: the concrete configuration of the claim. -/
theorem claim6_witness :
    build_command "claude" "hi" { model := some "fast", max_turns := some 3 }
      = ["claude", "--output-format", "stream-json", "--verbose",
         "--max-turns", toString (3 : Int), "--model", "fast", "--print", "hi"] :=
  claim6_amended "claude" "hi" "fast" (by decide) 3 (by decide)

/-! ### Lifecycle invariant -/

theorem reachable_none_streams (s : TransportState) (hr : Reachable s) :
    s.process = none → s.stdout_stream = false ∧ s.stderr_stream = false := by
  induction hr with
  | init => exact fun _ => ⟨rfl, rfl⟩
  | connectStep s sp s' hr hc ih =>
      intro hp
      unfold connect at hc
      cases hps : s.process with
      | some h =>
          rw [hps] at hc
          simp only [Except.ok.injEq] at hc
          subst hc
          exact ih hp
      | none =>
          rw [hps] at hc
          cases sp with
          | ok h so se =>
              simp only [Except.ok.injEq] at hc
              subst hc
              simp at hp
          | fileNotFound => simp at hc
          | otherFailure => simp at hc
  | disconnectStep s b s' hr hd ih =>
      intro hp
      unfold disconnect at hd
      cases hps : s.process with
      | none =>
          rw [hps] at hd
          simp only [Except.ok.injEq] at hd
          subst hd
          exact ih hp
      | some h =>
          rw [hps] at hd
          by_cases hrc : h.returncode = none
          · cases b <;>
              (simp [hrc] at hd
               subst hd
               exact ⟨rfl, rfl⟩)
          · simp [hrc] at hd
            subst hd
            exact ⟨rfl, rfl⟩
  | exitStep s h rc hr hps ih =>
      intro hp
      simp at hp

/-- C7: from any reachable transport state, `disconnect` succeeds, leaves
the process handle and both stream references cleared, and a second
`disconnect` (under any termination behaviour, including an
already-exited process) is a successful no-op. -/
theorem claim7_disconnect_idempotent (s : TransportState) (hr : Reachable s)
    (b b2 : TermBehavior) :
    ∃ s2, disconnect s b = .ok s2
      ∧ s2.process = none ∧ s2.stdout_stream = false ∧ s2.stderr_stream = false
      ∧ disconnect s2 b2 = .ok s2 := by
  obtain ⟨p, so, se⟩ := s
  cases p with
  | none =>
      obtain ⟨h1, h2⟩ := reachable_none_streams ⟨none, so, se⟩ hr rfl
      exact ⟨⟨none, so, se⟩, rfl, rfl, h1, h2, rfl⟩
  | some h =>
      refine ⟨⟨none, false, false⟩, ?_, rfl, rfl, rfl, rfl⟩
      by_cases hrc : h.returncode = none
      · cases b <;> simp [disconnect, hrc]
      · simp [disconnect, hrc]

/-- C7 witness: a connected-then-exited state, reached through the public
lifecycle, is torn down and the second disconnect is a no-op. -/
theorem claim7_witness :
    ∃ s2, disconnect ⟨some ⟨some 1⟩, true, true⟩ .graceful = .ok s2
      ∧ s2.process = none ∧ s2.stdout_stream = false ∧ s2.stderr_stream = false
      ∧ disconnect s2 .timeoutThenKill = .ok s2 :=
  claim7_disconnect_idempotent ⟨some ⟨some 1⟩, true, true⟩
    (Reachable.exitStep ⟨some ⟨none⟩, true, true⟩ ⟨none⟩ 1
      (Reachable.connectStep initState (.ok ⟨none⟩ true true)
        ⟨some ⟨none⟩, true, true⟩ Reachable.init rfl)
      rfl)
    .graceful .timeoutThenKill

/-- C8: `connect` fails with the not-found error exactly when no handle
exists and the spawn hits a missing executable, fails with the connection
error exactly when no handle exists and the spawn fails any other way, and
the `receive_messages` guard raises the connection error exactly when the
process handle or the stdout stream is missing. -/
theorem claim8_connection_errors (s : TransportState) (sp : SpawnOutcome) :
    (connect s sp = .error .notFound
        ↔ s.process = none ∧ sp = .fileNotFound)
    ∧ (connect s sp = .error .connectionError
        ↔ s.process = none ∧ sp = .otherFailure)
    ∧ (receiveMessagesGuard s = .error .connectionError
        ↔ (s.process = none ∨ s.stdout_stream = false)) := by
  obtain ⟨p, so, se⟩ := s
  refine ⟨?_, ?_, ?_⟩
  · cases p <;> cases sp <;> simp [connect]
  · cases p <;> cases sp <;> simp [connect]
  · cases p <;> cases so <;> simp [receiveMessagesGuard]

/-- C10: whenever a process handle exists — whatever its exit status and
whatever the pending spawn outcome — `connect` returns the state
unchanged, and only after `disconnect` clears the handle does `connect`
install a fresh process. -/
theorem claim10_connect_noop (h : ProcHandle) (so0 se0 : Bool)
    (sp : SpawnOutcome) (b : TermBehavior) (h2 : ProcHandle) (so se : Bool) :
    connect ⟨some h, so0, se0⟩ sp = .ok ⟨some h, so0, se0⟩
    ∧ ∃ s2, disconnect ⟨some h, so0, se0⟩ b = .ok s2 ∧ s2.process = none
        ∧ connect s2 (.ok h2 so se)
            = .ok { process := some h2, stdout_stream := so,
                    stderr_stream := se } := by
  constructor
  · rfl
  · refine ⟨⟨none, false, false⟩, ?_, rfl, rfl⟩
    by_cases hrc : h.returncode = none
    · cases b <;> simp [disconnect, hrc]
    · simp [disconnect, hrc]

end SubprocessCLI
